import Mathlib

/-!
ESP32-localtuya: field arithmetic, SPAKE2+ key derivation and confirmation.

A shallow embedding of

* `src/main/crypto/ecc-x/ecc/ecc-m.hpp` (256-bit limb arithmetic, Montgomery
  multiplication, byte import/export, the scalar multiplication prototype),
* `src/main/backend/pake/p256/implement/computeSecretAndVerifiersFromY.cpp`,
* `src/main/sources/sodium-cpp/step4.cpp`.

Machine integers are natural numbers reduced explicitly: a `uint32_t` is a
`Nat` below `2^32`, a `uint64_t` a `Nat` below `2^64`, a byte a `Nat` below
`2^8`.  A limb array (`U256`, `U288`) is the list of its limbs, least
significant limb first, exactly as the arrays are indexed in the source.
-/

namespace P256m

/-! ## 1. 256-bit numbers (`ecc-m.hpp`, section 1) -/

/-- Type `using U256 = std::array<uint32_t, 8>`: eight limbs, least significant first. -/
abbrev U256 := List Nat

/-- Type `using U288 = std::array<uint32_t, 9>`: nine limbs, least significant first. -/
abbrev U288 := List Nat

/-- Integer denoted by a limb list: limb `i` has weight `2^(32*i)`. -/
def limbs_val : List Nat → Nat
  | [] => 0
  | l :: ls => l + 2 ^ 32 * limbs_val ls

/-- Well-formed limb array of `n` limbs: `n` entries, each a `uint32_t`. -/
def is_limbs (n : Nat) (x : List Nat) : Prop :=
  x.length = n ∧ ∀ l ∈ x, l < 2 ^ 32

instance (n : Nat) (x : List Nat) : Decidable (is_limbs n x) := by
  unfold is_limbs; infer_instance

/-- Function `u256_set32`: `z[0] = x`, every other limb zero. -/
def u256_set32 (x : Nat) : U256 :=
  x :: List.replicate 7 0

/-- Loop of `u256_add`, one limb per step from limb 0 upwards:
`sum = (uint64_t)x[i] + y[i] + carry; z[i] = (uint32_t)sum; carry = (uint32_t)(sum >> 32)`. -/
def u256_add_loop : List Nat → List Nat → Nat → List Nat × Nat
  | xi :: xs, yi :: ys, carry =>
    let sum := (xi + yi + carry) % 2 ^ 64
    let r := u256_add_loop xs ys ((sum >>> 32) % 2 ^ 32)
    ((sum % 2 ^ 32) :: r.1, r.2)
  | _, _, carry => ([], carry)

/-- Function `u256_add(z, x, y)`: the pair `(z, returned carry)`. -/
def u256_add (x y : U256) : U256 × Nat :=
  u256_add_loop x y 0

/-- Loop of `u256_sub`, one limb per step from limb 0 upwards:
`diff = (uint64_t)x[i] - y[i] - carry; z[i] = (uint32_t)diff; carry = (diff >> 63) & 1`,
the subtraction being taken modulo `2^64`. -/
def u256_sub_loop : List Nat → List Nat → Nat → List Nat × Nat
  | xi :: xs, yi :: ys, carry =>
    let diff := (xi + 2 ^ 64 - yi % 2 ^ 64 + 2 ^ 64 - carry % 2 ^ 64) % 2 ^ 64
    let r := u256_sub_loop xs ys ((diff >>> 63) &&& 1)
    ((diff % 2 ^ 32) :: r.1, r.2)
  | _, _, carry => ([], carry)

/-- Function `u256_sub(z, x, y)`: the pair `(z, returned borrow)`. -/
def u256_sub (x y : U256) : U256 × Nat :=
  u256_sub_loop x y 0

/-- Bitwise complement of a `uint32_t`. -/
def not32 (a : Nat) : Nat := (2 ^ 32 - 1) ^^^ (a % 2 ^ 32)

/-- Loop of `u256_cmov`: `z[i] = (z[i] & ~mask) | (x[i] & mask)`. -/
def u256_cmov_loop (mask : Nat) : List Nat → List Nat → List Nat
  | zi :: zs, xi :: xs => ((zi &&& not32 mask) ||| (xi &&& mask)) :: u256_cmov_loop mask zs xs
  | _, _ => []

/-- Function `u256_cmov(z, x, c)` with `mask = (uint32_t)(-(int32_t)c)`; the result is the new `z`. -/
def u256_cmov (z x : U256) (c : Nat) : U256 :=
  let mask := (2 ^ 32 - c % 2 ^ 32) % 2 ^ 32
  u256_cmov_loop mask z x

/-- Loop of `u256_diff`: `diff |= (x[i] ^ y[i])`. -/
def u256_diff_loop : List Nat → List Nat → Nat → Nat
  | xi :: xs, yi :: ys, diff => u256_diff_loop xs ys (diff ||| (xi ^^^ yi))
  | _, _, diff => diff

/-- Function `u256_diff(x, y)`. -/
def u256_diff (x y : U256) : Nat :=
  u256_diff_loop x y 0

/-- Function `u256_diff0(x)`: `diff |= limb` over every limb. -/
def u256_diff0 (x : U256) : Nat :=
  x.foldl (fun diff limb => diff ||| limb) 0

/-! ## 2. Multiply-accumulate (`ecc-m.hpp`, sections 2 and 3) -/

/-- Function `u32_muladd64(x, y, z, t) = (uint64_t)x * y + z + t`. -/
def u32_muladd64 (x y z t : Nat) : Nat :=
  (x * y + z + t) % 2 ^ 64

/-- Loop of `u288_muladd` over the eight limbs of `y`:
`prod = u32_muladd64(x, y[i], z[i], carry); z[i] = (uint32_t)prod; carry = (uint32_t)(prod >> 32)`. -/
def u288_muladd_loop (x : Nat) : List Nat → List Nat → Nat → List Nat × Nat
  | zi :: zs, yi :: ys, carry =>
    let prod := u32_muladd64 x yi zi carry
    let r := u288_muladd_loop x zs ys ((prod >>> 32) % 2 ^ 32)
    ((prod % 2 ^ 32) :: r.1, r.2)
  | _, _, carry => ([], carry)

/-- Function `u288_muladd(z, x, y)`: `z += x * y` on nine limbs; the pair `(z, returned carry)`.
After the loop `sum = (uint64_t)z[8] + carry; z[8] = (uint32_t)sum; carry = (uint32_t)(sum >> 32)`. -/
def u288_muladd (z : U288) (x : Nat) (y : U256) : U288 × Nat :=
  let r := u288_muladd_loop x (z.take 8) y 0
  let sum := (z.getD 8 0 + r.2) % 2 ^ 64
  (r.1 ++ [sum % 2 ^ 32], (sum >>> 32) % 2 ^ 32)

/-- Function `u288_rshift32(z, c)`: `z[i] = z[i+1]` for `i < 8`, then `z[8] = c`. -/
def u288_rshift32 (z : U288) (c : Nat) : U288 :=
  z.drop 1 ++ [c]

/-! ## 3. Big-endian import and export (`ecc-m.hpp`, section 4) -/

/-- Limb `i` of `u256_from_bytes`, with `j = 4 * (7 - i)`:
`(p[j] << 24) | (p[j+1] << 16) | (p[j+2] << 8) | p[j+3]`. -/
def u256_from_bytes_limb (p : List Nat) (i : Nat) : Nat :=
  let j := 4 * (7 - i)
  ((p.getD j 0 <<< 24) % 2 ^ 32) ||| ((p.getD (j + 1) 0 <<< 16) % 2 ^ 32) |||
    ((p.getD (j + 2) 0 <<< 8) % 2 ^ 32) ||| (p.getD (j + 3) 0 % 2 ^ 32)

/-- Function `u256_from_bytes(z, p)`: the limbs `z[0..8)`. -/
def u256_from_bytes (p : List Nat) : U256 :=
  (List.range 8).map (u256_from_bytes_limb p)

/-- The four bytes `p[j..j+4)` that `u256_to_bytes` writes for one limb:
`(uint8_t)(z >> 24), (uint8_t)(z >> 16), (uint8_t)(z >> 8), (uint8_t)z`. -/
def u256_to_bytes_limb (zi : Nat) : List Nat :=
  [(zi >>> 24) % 2 ^ 8, (zi >>> 16) % 2 ^ 8, (zi >>> 8) % 2 ^ 8, zi % 2 ^ 8]

/-- Function `u256_to_bytes(p, z)`: limb `i` goes to `p[4*(7-i) .. 4*(7-i)+4)`, so the
bytes of limb 7 come first and those of limb 0 last. -/
def u256_to_bytes (z : U256) : List Nat :=
  ((List.range 8).reverse.map (fun i => u256_to_bytes_limb (z.getD i 0))).flatten

/-! ## 4. Montgomery arithmetic (`ecc-m.hpp`, section 5) -/

/-- Type `struct m256_mod`: modulus `m`, `R2 = R^2 mod m` for `R = 2^256`, `ni = -m^-1 mod 2^32`. -/
structure m256_mod where
  m : U256
  R2 : U256
  ni : Nat
  deriving DecidableEq, Repr

/-- Context of the P-256 field prime. -/
def p256_p : m256_mod :=
  { m := [0xFFFFFFFF, 0xFFFFFFFF, 0xFFFFFFFF, 0x00000000, 0x00000000, 0x00000000, 0x00000001, 0xFFFFFFFF]
    R2 := [0x00000003, 0x00000000, 0xFFFFFFFF, 0xFFFFFFFB, 0xFFFFFFFE, 0xFFFFFFFF, 0xFFFFFFFD, 0x00000004]
    ni := 0x00000001 }

/-- Context of the P-256 group order. -/
def p256_n : m256_mod :=
  { m := [0xFC632551, 0xF3B9CAC2, 0xA7179E84, 0xBCE6FAAD, 0xFFFFFFFF, 0xFFFFFFFF, 0x00000000, 0xFFFFFFFF]
    R2 := [0xBE79EEA2, 0x83244C95, 0x49BD6FA6, 0x4699799C, 0x2B6BEC59, 0x2845B239, 0xF3D95620, 0x66E12D94]
    ni := 0xEE00BC4F }

/-- One iteration of the loop of `m256_mul` for the limb `xi = x[i]`:
`u = (uint32_t)((a[0] + (uint64_t)x[i] * y[0]) * m_prime)`,
`c = u288_muladd(a, x[i], y); c += u288_muladd(a, u, mod.m); u288_rshift32(a, c)`. -/
def m256_mul_step (y : U256) (mod : m256_mod) (a : U288) (xi : Nat) : U288 :=
  let u := (((a.getD 0 0 + xi * y.getD 0 0) % 2 ^ 64 * mod.ni) % 2 ^ 64) % 2 ^ 32
  let r1 := u288_muladd a xi y
  let r2 := u288_muladd r1.1 u mod.m
  let c := (r1.2 + r2.2) % 2 ^ 32
  u288_rshift32 r2.1 c

/-- The accumulator of `m256_mul` after its loop: `U288 a = {}` folded over `x[0], ..., x[7]`. -/
def m256_mul_acc (x y : U256) (mod : m256_mod) : U288 :=
  x.foldl (m256_mul_step y mod) (List.replicate 9 0)

/-- Function `m256_mul(z, x, y, mod)`; the result is `z`.  After the loop the code runs
`carry_add = u256_add(tmp, a.data(), mod.m.data())`,
`carry_sub = u256_sub(z, a.data(), mod.m.data())`,
`use_sub = carry_add | (1 - carry_sub)`, `u256_cmov(z, tmp, 1 - use_sub)`,
where `a.data()` denotes the low eight limbs of the accumulator. -/
def m256_mul (x y : U256) (mod : m256_mod) : U256 :=
  let a := m256_mul_acc x y mod
  let radd := u256_add (a.take 8) mod.m
  let tmp := radd.1
  let carry_add := radd.2
  let rsub := u256_sub (a.take 8) mod.m
  let z := rsub.1
  let carry_sub := rsub.2
  let use_sub := carry_add ||| ((1 + 2 ^ 32 - carry_sub % 2 ^ 32) % 2 ^ 32)
  u256_cmov z tmp ((1 + 2 ^ 32 - use_sub % 2 ^ 32) % 2 ^ 32)

/-- Function `m256_prep(z, mod)`: `m256_mul(z, z, mod.R2, mod)`. -/
def m256_prep (z : U256) (mod : m256_mod) : U256 :=
  m256_mul z mod.R2 mod

/-- Function `m256_done(z, mod)`: `m256_mul(z, z, one, mod)` with `one = u256_set32(1)`. -/
def m256_done (z : U256) (mod : m256_mod) : U256 :=
  m256_mul z (u256_set32 1) mod

/-! ## 5. Modular numbers from and to bytes (`ecc-m.hpp`, section 6) -/

/-- Function `m256_from_bytes(z, p, mod)`: the pair `(return value, z)`.
`lt_m = u256_sub(t, z, mod.m); if (lt_m != 1) return -1; m256_prep(z, mod); return 0`. -/
def m256_from_bytes (p : List Nat) (mod : m256_mod) : Int × U256 :=
  let z := u256_from_bytes p
  let lt_m := (u256_sub z mod.m).2
  if lt_m ≠ 1 then (-1, z) else (0, m256_prep z mod)

/-- Function `m256_to_bytes(p, z, mod)`: `u256_cmov(zi, z, 1); m256_done(zi, mod); u256_to_bytes(p, zi)`.
The copy `zi` starts from an arbitrary array (here zeros) and is overwritten by the move. -/
def m256_to_bytes (z : U256) (mod : m256_mod) : List Nat :=
  let zi := u256_cmov (List.replicate 8 0) z 1
  u256_to_bytes (m256_done zi mod)

/-! ## 6. Curve points (`ecc-m.hpp`, the prototypes at the end) -/

/-- Type `struct AffinePoint { U256 x; U256 y; }`. -/
structure AffinePoint where
  x : U256
  y : U256
  deriving DecidableEq, Repr

/-- Type `struct JacobianPoint { U256 X; U256 Y; U256 Z; }`. -/
structure JacobianPoint where
  X : U256
  Y : U256
  Z : U256
  deriving DecidableEq, Repr

/-- Function `point_to_affine(P)`.  The source tests `Z == 0` (written `u256_diff(P.Z) == 0`, the
zero test of `u256_diff0`) and then returns `{{0}, {0}}`, the point at infinity.  In the
other branch it returns the local `AffinePoint A`, which the body never assigns; that
indeterminate value is the argument `A` here. -/
def point_to_affine (P : JacobianPoint) (A : AffinePoint) : AffinePoint :=
  if u256_diff0 P.Z = 0 then { x := List.replicate 8 0, y := List.replicate 8 0 } else A

/-- Function `scalar_mult(rx, ry, px, py, s)`: the pair `(rx, ry)`.  The body is `rx = px; ry = py;`. -/
def scalar_mult (px py : U256) (_s : U256) : U256 × U256 :=
  (px, py)

/-! ## 7. Reference notions used to state the properties -/

/-- Integer denoted by a byte string read big-endian (first byte most significant). -/
def be_val (p : List Nat) : Nat :=
  p.foldl (fun acc b => 256 * acc + b) 0

/-- The 32-byte big-endian encoding of `n`. -/
def be_bytes32 (n : Nat) : List Nat :=
  (List.range 32).map (fun j => (n / 256 ^ (31 - j)) % 256)

/-- Well-formed byte string of `n` bytes: `n` entries, each a `uint8_t`. -/
def is_bytes (n : Nat) (p : List Nat) : Prop :=
  p.length = n ∧ ∀ b ∈ p, b < 2 ^ 8

instance (n : Nat) (p : List Nat) : Decidable (is_bytes n p) := by
  unfold is_bytes; infer_instance

end P256m

/-! ## 8. SPAKE2+ key derivation (`computeSecretAndVerifiersFromY.cpp`) -/

namespace Pake

/-- The OpenSSL collaborators that `computeSecretAndVerifiersFromY` calls, over a type `G`
of curve points.  Each field is the outcome of the call of that name; `none` or `false`
is the failure return.  Scalars (`BIGNUM`) are natural numbers and bytes are naturals
below 256.
* `EC_POINT_mul q m` is `EC_POINT_mul(group, r, nullptr, q, m, ctx)`, the new value of `r`;
* `EC_POINT_invert a` is the new value of the point inverted in place;
* `EC_POINT_add a b` is `EC_POINT_add(group, r, a, b, ctx)`, the new value of `r`;
* `point2oct P` is the uncompressed encoding of `P`;
* `BN_bn2bin w` is the `BN_num_bytes(w)` bytes written by `BN_bn2bin`;
* `EVP_DigestUpdate t` is the status of absorbing `t`, `EVP_DigestFinal_ex t` the digest
  of the absorbed bytes `t`. -/
structure Backend (G : Type) where
  BN_CTX_new : Bool
  EC_POINT_mul : G → Nat → Option G
  EC_POINT_invert : G → Option G
  EC_POINT_add : G → G → Option G
  point2oct : G → List Nat
  BN_bn2bin : Nat → List Nat
  EVP_MD_CTX_new : Bool
  EVP_DigestInit_ex : Bool
  EVP_DigestUpdate : List Nat → Bool
  EVP_DigestFinal_ex : List Nat → Option (List Nat)

/-- The members of `class Spake2p` that the function reads. -/
structure Spake2p (G : Type) where
  N : G
  w0 : Nat
  random : Nat
  context : List Nat

/-- What a successful run computes: the out-parameters `Ke`, `hAY`, `hBX`, and the locals
`Z`, `V`, `transcript` and `hash` they are derived from. -/
structure Derived (G : Type) where
  Z : G
  V : G
  transcript : List Nat
  hash : List Nat
  Ke : List Nat
  hAY : List Nat
  hBX : List Nat

/-- Writing the bytes `d` at the start of the buffer `buf`. -/
def write_buf (buf d : List Nat) : List Nat :=
  d ++ buf.drop d.length

/-- Function `EC_POINT_point2oct(group, P, POINT_CONVERSION_UNCOMPRESSED, buf, sizeof(buf), ctx)` for
an encoding `enc` of `P`: the pair `(buf, returned length)`.  When the encoding does not
fit, nothing is written and the call returns 0. -/
def EC_POINT_point2oct (enc buf : List Nat) : List Nat × Nat :=
  if enc.length ≤ buf.length then (write_buf buf enc, enc.length) else (buf, 0)

/-- The byte range `[first, last)` of a buffer, as in `v.assign(buf + first, buf + last)`. -/
def byte_range (buf : List Nat) (first last : Nat) : List Nat :=
  (buf.drop first).take (last - first)

/-- Function `Spake2p::computeSecretAndVerifiersFromY(w1, X, Y, Ke, hAY, hBX)`.  `none` is the
return value `false`, `some d` the return value `true`. -/
def computeSecretAndVerifiersFromY {G : Type} (B : Backend G) (self : Spake2p G)
    (w1 : Nat) (X Y : G) : Option (Derived G) :=
  if B.BN_CTX_new = false then none else
  (B.EC_POINT_mul self.N self.w0).bind fun temp =>
  (B.EC_POINT_invert temp).bind fun temp =>
  (B.EC_POINT_add Y temp).bind fun Yprime =>
  (B.EC_POINT_mul Yprime self.random).bind fun Z =>
  (B.EC_POINT_mul Yprime w1).bind fun V =>
  let bufX := EC_POINT_point2oct (B.point2oct X) (List.replicate 100 0)
  let bufY := EC_POINT_point2oct (B.point2oct Y) (List.replicate 100 0)
  let bufZ := EC_POINT_point2oct (B.point2oct Z) (List.replicate 100 0)
  let bufV := EC_POINT_point2oct (B.point2oct V) (List.replicate 100 0)
  let w0_bytes := B.BN_bn2bin self.w0
  let transcript := self.context ++ byte_range bufX.1 0 bufX.2 ++ byte_range bufY.1 0 bufY.2
    ++ byte_range bufZ.1 0 bufZ.2 ++ byte_range bufV.1 0 bufV.2 ++ w0_bytes
  if B.EVP_MD_CTX_new = false then none else
  if B.EVP_DigestInit_ex = false then none else
  if B.EVP_DigestUpdate transcript = false then none else
  (B.EVP_DigestFinal_ex transcript).bind fun digest =>
  let hash := write_buf (List.replicate 32 0) digest
  some { Z := Z, V := V, transcript := transcript, hash := hash,
         Ke := byte_range hash 16 32, hAY := byte_range hash 0 16, hBX := byte_range hash 0 16 }

/-- The backend computes in a commutative group: whenever a point operation succeeds, its
result is the group operation (scalar multiple, negation, sum). -/
def Backend.group_ops {G : Type} [AddCommGroup G] (B : Backend G) : Prop :=
  (∀ q m r, B.EC_POINT_mul q m = some r → r = m • q) ∧
  (∀ a r, B.EC_POINT_invert a = some r → r = -a) ∧
  (∀ a b r, B.EC_POINT_add a b = some r → r = a + b)

/-- A small instance used to run the function: points are integers under addition, every
call succeeds, encodings are 65 bytes, a scalar is written as one byte, and the digest is
a 32-byte checksum. -/
def toy_backend : Backend Int :=
  { BN_CTX_new := true
    EC_POINT_mul := fun q m => some ((m : Int) * q)
    EC_POINT_invert := fun a => some (-a)
    EC_POINT_add := fun a b => some (a + b)
    point2oct := fun P => 4 :: List.replicate 63 0 ++ [P.natAbs % 256]
    BN_bn2bin := fun w => [w % 256]
    EVP_MD_CTX_new := true
    EVP_DigestInit_ex := true
    EVP_DigestUpdate := fun _ => true
    EVP_DigestFinal_ex := fun t => some ((List.range 32).map (fun i => (t.sum + i) % 256)) }

/-- A small protocol state for `toy_backend`. -/
def toy_state : Spake2p Int :=
  { N := 3, w0 := 2, random := 5, context := [83, 80] }

/-- The result of running the function on `toy_backend` and `toy_state` with `w1 = 7`,
`X = 11`, `Y = 13`, written out. -/
def toy_derived : Derived Int :=
  let t := [83, 80] ++ toy_backend.point2oct 11 ++ toy_backend.point2oct 13
    ++ toy_backend.point2oct 35 ++ toy_backend.point2oct 49 ++ [2]
  let h := (List.range 32).map (fun i => (t.sum + i) % 256)
  { Z := 35, V := 49, transcript := t, hash := h,
    Ke := h.drop 16, hAY := h.take 16, hBX := h.take 16 }

end Pake

/-! ## 9. Confirmation step (`sodium-cpp/step4.cpp`) -/

namespace SodiumSpake

/-- Type `SharedKeys`: the two session keys, as byte arrays. -/
structure SharedKeys where
  client_sk : List Nat
  server_sk : List Nat
  deriving DecidableEq, Repr

/-- Type `ServerState`: the fields `crypto_spake_step4` reads, as byte arrays. -/
structure ServerState where
  server_validator : List Nat
  shared_keys : SharedKeys
  deriving DecidableEq, Repr

/-- All bytes of a `ServerState`, field after field. -/
def ServerState.bytes (st : ServerState) : List Nat :=
  st.server_validator ++ st.shared_keys.client_sk ++ st.shared_keys.server_sk

/-- Function `sodium_memcmp(b1, b2, len)`: 0 when the first `len` bytes agree, -1 otherwise. -/
def sodium_memcmp (b1 b2 : List Nat) (len : Nat) : Int :=
  if b1.take len = b2.take len then 0 else -1

/-- Function `memcpy(dst, src, n)`: the new contents of `dst`. -/
def memcpy (dst src : List Nat) (n : Nat) : List Nat :=
  src.take n ++ dst.drop n

/-- Function `sodium_memzero(&st, sizeof(st))`: every byte of the state becomes 0. -/
def sodium_memzero (st : ServerState) : ServerState :=
  { server_validator := st.server_validator.map (fun _ => 0)
    shared_keys :=
      { client_sk := st.shared_keys.client_sk.map (fun _ => 0)
        server_sk := st.shared_keys.server_sk.map (fun _ => 0) } }

/-- Function `crypto_spake_step4(st, shared_keys, response3)`: the triple (return value, `st` on
return, `shared_keys` on return).  The constant `crypto_spake_SHAREDKEYBYTES` is declared
in `spake.h` and is the first argument here. -/
def crypto_spake_step4 (crypto_spake_SHAREDKEYBYTES : Nat) (st : ServerState)
    (shared_keys : SharedKeys) (response3 : List Nat) : Int × ServerState × SharedKeys :=
  if sodium_memcmp response3 st.server_validator 32 ≠ 0 then
    (-1, sodium_memzero st, shared_keys)
  else
    let k1 : SharedKeys :=
      { shared_keys with
        client_sk := memcpy shared_keys.client_sk st.shared_keys.client_sk
          crypto_spake_SHAREDKEYBYTES }
    let k2 : SharedKeys :=
      { k1 with
        server_sk := memcpy k1.server_sk st.shared_keys.server_sk crypto_spake_SHAREDKEYBYTES }
    (0, sodium_memzero st, k2)

/-- A server state with a 32-byte validator and two 32-byte keys. -/
def toy_server : ServerState :=
  { server_validator := List.range 32
    shared_keys := { client_sk := List.replicate 32 1, server_sk := List.replicate 32 2 } }

/-- The caller's key buffers before the call. -/
def toy_keys : SharedKeys :=
  { client_sk := List.replicate 32 9, server_sk := List.replicate 32 9 }

end SodiumSpake

/-! ## 10. The loop of `m256_mul`, iteration by iteration -/

namespace P256m

/-- The reduction digit of one iteration of `m256_mul`:
`u = (uint32_t)((a[0] + (uint64_t)x[i] * y[0]) * m_prime)`. -/
def m256_mul_u (y : U256) (mod : m256_mod) (a : U288) (xi : Nat) : Nat :=
  (((a.getD 0 0 + xi * y.getD 0 0) % 2 ^ 64 * mod.ni) % 2 ^ 64) % 2 ^ 32

/-- The two carries returned in one iteration of `m256_mul`, by `u288_muladd(a, x[i], y)`
and by `u288_muladd(a, u, mod.m)`; the code adds them in a `uint32_t`. -/
def m256_mul_carries (y : U256) (mod : m256_mod) (a : U288) (xi : Nat) : Nat × Nat :=
  let r1 := u288_muladd a xi y
  let r2 := u288_muladd r1.1 (m256_mul_u y mod a xi) mod.m
  (r1.2, r2.2)

/-- The accumulator of `m256_mul` after its first `k` iterations. -/
def m256_mul_acc_at (k : Nat) (x y : U256) (mod : m256_mod) : U288 :=
  (x.take k).foldl (m256_mul_step y mod) (List.replicate 9 0)

end P256m

/-! ## 11. Fixed-width packing (`sodium-cpp/memory.h`) -/

namespace MemUtil

/-- Function `push16(out, pos, v)`: the pair (`out`, `pos`) on return.
`out[pos++] = (unsigned char)(v & 0xFF); out[pos++] = (unsigned char)(v >> 8 & 0xFF)`. -/
def push16 (out : List Nat) (pos : Nat) (v : Nat) : List Nat × Nat :=
  let out1 := out.set pos ((v &&& 0xFF) % 2 ^ 8)
  let out2 := out1.set (pos + 1) (((v >>> 8) &&& 0xFF) % 2 ^ 8)
  (out2, pos + 1 + 1)

/-- Function `push64(out, pos, v)`: the pair (`out`, `pos`) on return.
For `i = 0 .. 7`: `out[pos++] = (unsigned char)(v >> (8*i))`. -/
def push64 (out : List Nat) (pos : Nat) (v : Nat) : List Nat × Nat :=
  (List.range 8).foldl
    (fun (s : List Nat × Nat) i => (s.1.set s.2 ((v >>> (8 * i)) % 2 ^ 8), s.2 + 1)) (out, pos)

/-- Copy `memcpy(out + pos, src, n)`: the new contents of `out`. -/
def memcpy_at (out : List Nat) (pos : Nat) (src : List Nat) (n : Nat) : List Nat :=
  out.take pos ++ src.take n ++ out.drop (pos + n)

/-- Function `push128(out, pos, v)`: `memcpy(out + pos, v, 16); pos += 16`. -/
def push128 (out : List Nat) (pos : Nat) (v : List Nat) : List Nat × Nat :=
  (memcpy_at out pos v 16, pos + 16)

/-- Function `push256(out, pos, v)`: `memcpy(out + pos, v, 32); pos += 32`. -/
def push256 (out : List Nat) (pos : Nat) (v : List Nat) : List Nat × Nat :=
  (memcpy_at out pos v 32, pos + 32)

/-- Function `pop16(v, in, pos)`: the pair (`v`, `pos`) on return.
`v = ((uint16_t) in[pos]) | (((uint16_t) in[pos+1]) << 8); pos += 2`. -/
def pop16 (inp : List Nat) (pos : Nat) : Nat × Nat :=
  ((inp.getD pos 0 ||| (inp.getD (pos + 1) 0 <<< 8)) % 2 ^ 16, pos + 2)

/-- Function `pop64(v, in, pos)`: the pair (`v`, `pos`) on return.
`v = 0;` for `i = 0 .. 7`: `v |= ((uint64_t) in[pos+i]) << (8*i)`; then `pos += 8`. -/
def pop64 (inp : List Nat) (pos : Nat) : Nat × Nat :=
  ((List.range 8).foldl
    (fun v i => v ||| ((inp.getD (pos + i) 0 <<< (8 * i)) % 2 ^ 64)) 0, pos + 8)

/-- Function `pop128(v, in, pos)`: `memcpy(v, in + pos, 16); pos += 16`; the pair (`v`, `pos`). -/
def pop128 (inp : List Nat) (pos : Nat) : List Nat × Nat :=
  ((inp.drop pos).take 16, pos + 16)

/-- Function `pop256(v, in, pos)`: `memcpy(v, in + pos, 32); pos += 32`; the pair (`v`, `pos`). -/
def pop256 (inp : List Nat) (pos : Nat) : List Nat × Nat :=
  ((inp.drop pos).take 32, pos + 32)

end MemUtil

/-! ## Properties of the field arithmetic -/

namespace P256m

lemma limbs_val_lt (x : List Nat) (hx : ∀ l ∈ x, l < 2 ^ 32) :
    limbs_val x < 2 ^ (32 * x.length) := by
  induction x with
  | nil => simp [limbs_val]
  | cons a xs ih =>
    have ha : a < 2 ^ 32 := hx a (by simp)
    have hxs := ih (fun l hl => hx l (by simp [hl]))
    have hp : 2 ^ (32 * (a :: xs).length) = 2 ^ 32 * 2 ^ (32 * xs.length) := by
      rw [List.length_cons, Nat.mul_succ, Nat.pow_add, Nat.mul_comm]
    rw [hp]
    simp only [limbs_val]
    generalize 2 ^ (32 * xs.length) = P at hxs ⊢
    generalize limbs_val xs = v at hxs ⊢
    norm_num at ha ⊢
    omega

lemma u256_sub_limb (xi yi c : Nat) (hx : xi < 2 ^ 32) (hy : yi < 2 ^ 32) (hc : c ≤ 1) :
    (((xi + 2 ^ 64 - yi % 2 ^ 64 + 2 ^ 64 - c % 2 ^ 64) % 2 ^ 64) >>> 63) &&& 1 ≤ 1 ∧
    ((xi + 2 ^ 64 - yi % 2 ^ 64 + 2 ^ 64 - c % 2 ^ 64) % 2 ^ 64) % 2 ^ 32 + yi + c
      = xi + ((((xi + 2 ^ 64 - yi % 2 ^ 64 + 2 ^ 64 - c % 2 ^ 64) % 2 ^ 64) >>> 63) &&& 1) * 2 ^ 32 := by
  rw [Nat.shiftRight_eq_div_pow, Nat.and_one_is_mod]
  norm_num at hx hy ⊢
  omega

lemma u256_sub_loop_spec (x : List Nat) : ∀ (y : List Nat) (c : Nat),
    x.length = y.length → (∀ l ∈ x, l < 2 ^ 32) → (∀ l ∈ y, l < 2 ^ 32) → c ≤ 1 →
    (u256_sub_loop x y c).2 ≤ 1 ∧ (u256_sub_loop x y c).1.length = x.length ∧
    (∀ l ∈ (u256_sub_loop x y c).1, l < 2 ^ 32) ∧
    limbs_val (u256_sub_loop x y c).1 + limbs_val y + c
      = limbs_val x + (u256_sub_loop x y c).2 * 2 ^ (32 * x.length) := by
  induction x with
  | nil =>
    intro y c hl _ _ hc
    cases y with
    | nil => simp [u256_sub_loop, limbs_val, hc]
    | cons b ys => simp at hl
  | cons a xs ih =>
    intro y c hl hx hy hc
    cases y with
    | nil => simp at hl
    | cons b ys =>
      have ha : a < 2 ^ 32 := hx a (by simp)
      have hb : b < 2 ^ 32 := hy b (by simp)
      obtain ⟨h1, h2⟩ := u256_sub_limb a b c ha hb hc
      have hl2 : xs.length = ys.length := by simpa using hl
      obtain ⟨i1, i2, i3, i4⟩ := ih ys _ hl2 (fun l h => hx l (by simp [h]))
        (fun l h => hy l (by simp [h])) h1
      simp only [u256_sub_loop, limbs_val, List.length_cons]
      refine ⟨i1, by rw [i2], ?_, ?_⟩
      · intro l hl
        rcases List.mem_cons.1 hl with h | h
        · rw [h]; exact Nat.lt_of_lt_of_le (Nat.mod_lt _ (by norm_num)) (le_refl _)
        · exact i3 l h
      · have hp : 2 ^ (32 * (xs.length + 1)) = 2 ^ 32 * 2 ^ (32 * xs.length) := by
          rw [Nat.mul_succ, Nat.pow_add, Nat.mul_comm]
        rw [hp]
        generalize (u256_sub_loop xs ys _) = r at i1 i2 i3 i4 ⊢
        generalize ((a + 2 ^ 64 - b % 2 ^ 64 + 2 ^ 64 - c % 2 ^ 64) % 2 ^ 64) = d at h1 h2 i4 ⊢
        have e : r.2 * (2 ^ 32 * 2 ^ (32 * xs.length)) = 2 ^ 32 * (r.2 * 2 ^ (32 * xs.length)) := by ring
        rw [e]
        generalize r.2 * 2 ^ (32 * xs.length) = t at i4 ⊢
        generalize limbs_val r.1 = v at i4 ⊢
        generalize limbs_val ys = w at i4 ⊢
        generalize limbs_val xs = u at i4 ⊢
        generalize (d >>> 63 &&& 1) = k at h2 i4 ⊢
        norm_num at h2 ⊢
        omega

/-- The borrow returned by `u256_sub` is `1` exactly when `x < y`. -/
lemma u256_sub_borrow (x y : List Nat) (n : Nat) (hx : is_limbs n x) (hy : is_limbs n y) :
    ((u256_sub x y).2 = 1 ↔ limbs_val x < limbs_val y) ∧ (u256_sub x y).2 ≤ 1 := by
  obtain ⟨h1, h2, h3, h4⟩ := u256_sub_loop_spec x y 0 (hx.1.trans hy.1.symm) hx.2 hy.2 (by omega)
  have bx := limbs_val_lt x hx.2
  have by_ := limbs_val_lt y hy.2
  have bz := limbs_val_lt _ h3
  rw [h2] at bz
  rw [hy.1, ← hx.1] at by_
  unfold u256_sub
  generalize (u256_sub_loop x y 0) = r at *
  generalize 2 ^ (32 * x.length) = P at *
  refine ⟨⟨fun h => ?_, fun h => ?_⟩, h1⟩
  · rw [h] at h4; omega
  · have : r.2 = 0 ∨ r.2 = 1 := by omega
    rcases this with h0 | h0
    · rw [h0] at h4; omega
    · exact h0


lemma u256_from_bytes_word (a b c d : Nat) (ha : a < 2 ^ 8) (hb : b < 2 ^ 8) (hc : c < 2 ^ 8)
    (hd : d < 2 ^ 8) :
    ((a <<< 24) % 2 ^ 32) ||| ((b <<< 16) % 2 ^ 32) ||| ((c <<< 8) % 2 ^ 32) ||| (d % 2 ^ 32)
      = 2 ^ 24 * a + 2 ^ 16 * b + 2 ^ 8 * c + d := by
  have e1 : (a <<< 24) % 2 ^ 32 = 2 ^ 24 * a := by
    rw [Nat.shiftLeft_eq, Nat.mod_eq_of_lt] <;> norm_num at ha ⊢ <;> omega
  have e2 : (b <<< 16) % 2 ^ 32 = 2 ^ 16 * b := by
    rw [Nat.shiftLeft_eq, Nat.mod_eq_of_lt] <;> norm_num at hb ⊢ <;> omega
  have e3 : (c <<< 8) % 2 ^ 32 = 2 ^ 8 * c := by
    rw [Nat.shiftLeft_eq, Nat.mod_eq_of_lt] <;> norm_num at hc ⊢ <;> omega
  have e4 : d % 2 ^ 32 = d := by
    rw [Nat.mod_eq_of_lt]; norm_num at hd ⊢; omega
  rw [e1, e2, e3, e4, Nat.or_assoc, Nat.or_assoc]
  rw [← Nat.mul_add_lt_is_or hd]
  have h16 : 2 ^ 8 * c + d < 2 ^ 16 := by norm_num at hc hd ⊢; omega
  rw [← Nat.mul_add_lt_is_or h16]
  have h24 : 2 ^ 16 * b + (2 ^ 8 * c + d) < 2 ^ 24 := by norm_num at hb hc hd ⊢; omega
  rw [← Nat.mul_add_lt_is_or h24]
  omega

lemma u256_from_bytes_spec (p : List Nat) (hp : is_bytes 32 p) :
    is_limbs 8 (u256_from_bytes p) ∧ limbs_val (u256_from_bytes p) = be_val p := by
  obtain ⟨hlen, hb⟩ := hp
  iterate 32 (rcases p with _ | ⟨_, p⟩; · simp at hlen)
  rcases p with _ | ⟨_, p⟩
  swap; · simp at hlen
  simp only [List.mem_cons, forall_eq_or_imp, List.mem_nil_iff] at hb
  obtain ⟨h0, h1, h2, h3, h4, h5, h6, h7, h8, h9, h10, h11, h12, h13, h14, h15, h16, h17, h18,
    h19, h20, h21, h22, h23, h24, h25, h26, h27, h28, h29, h30, h31, -⟩ := hb
  simp only [u256_from_bytes, u256_from_bytes_limb, List.range, List.range.loop, List.map,
    List.getD_cons_succ, List.getD_cons_zero, Nat.reduceMul, Nat.reduceSub, Nat.reduceAdd]
  rw [u256_from_bytes_word _ _ _ _ h0 h1 h2 h3, u256_from_bytes_word _ _ _ _ h4 h5 h6 h7,
    u256_from_bytes_word _ _ _ _ h8 h9 h10 h11, u256_from_bytes_word _ _ _ _ h12 h13 h14 h15,
    u256_from_bytes_word _ _ _ _ h16 h17 h18 h19, u256_from_bytes_word _ _ _ _ h20 h21 h22 h23,
    u256_from_bytes_word _ _ _ _ h24 h25 h26 h27, u256_from_bytes_word _ _ _ _ h28 h29 h30 h31]
  refine ⟨⟨rfl, ?_⟩, ?_⟩
  · simp only [List.mem_cons, forall_eq_or_imp, List.mem_nil_iff]
    norm_num at *
    omega
  · simp only [limbs_val, be_val, List.foldl]
    norm_num
    omega

set_option maxRecDepth 20000 in
/-- C1, the failing input.  For `x = y = 0`, which is below the modulus, `m256_mul` returns
the limbs of the modulus itself, under `p256_p` and under `p256_n` alike, so the result is
not in `[0, m)` and is not `(x * y / R) mod m = 0`; and a product taken through `m256_prep`
and `m256_done` is not `(2 * 3) mod m`. -/
theorem m256_mul_zero_returns_modulus :
    m256_mul (u256_set32 0) (u256_set32 0) p256_p = p256_p.m ∧
    ¬ limbs_val (m256_mul (u256_set32 0) (u256_set32 0) p256_p) < limbs_val p256_p.m ∧
    m256_mul (u256_set32 0) (u256_set32 0) p256_n = p256_n.m ∧
    limbs_val (m256_done (m256_mul (m256_prep (u256_set32 2) p256_p)
      (m256_prep (u256_set32 3) p256_p) p256_p) p256_p) ≠ 2 * 3 % limbs_val p256_p.m := by
  decide

set_option maxRecDepth 20000 in
/-- C2, the failing input.  The 32-byte string `b = 00 .. 00 01` has value 1, below the
modulus of `p256_p`; `m256_from_bytes` accepts it, and `m256_to_bytes` then writes the
encoding of `m + 2`, which differs from `b`. -/
theorem m256_bytes_round_trip_of_one :
    is_bytes 32 (List.replicate 31 0 ++ [1]) ∧
    be_val (List.replicate 31 0 ++ [1]) < limbs_val p256_p.m ∧
    (m256_from_bytes (List.replicate 31 0 ++ [1]) p256_p).1 = 0 ∧
    m256_to_bytes (m256_from_bytes (List.replicate 31 0 ++ [1]) p256_p).2 p256_p
      = be_bytes32 (limbs_val p256_p.m + 2) ∧
    m256_to_bytes (m256_from_bytes (List.replicate 31 0 ++ [1]) p256_p).2 p256_p
      ≠ List.replicate 31 0 ++ [1] := by
  decide

set_option maxRecDepth 20000 in
/-- C3.  For either modulus context and every 32-byte input `p`, `m256_from_bytes`
returns 0 exactly when the big-endian value of `p` is below the modulus and returns -1
exactly when it is not; the encoding of `m - 1` is accepted and the encoding of `m` is
rejected. -/
theorem m256_from_bytes_accepts_iff_below_modulus (mod : m256_mod)
    (hmod : mod = p256_p ∨ mod = p256_n) (p : List Nat) (hp : is_bytes 32 p) :
    ((m256_from_bytes p mod).1 = 0 ↔ be_val p < limbs_val mod.m) ∧
    ((m256_from_bytes p mod).1 = -1 ↔ limbs_val mod.m ≤ be_val p) ∧
    (m256_from_bytes (be_bytes32 (limbs_val mod.m - 1)) mod).1 = 0 ∧
    (m256_from_bytes (be_bytes32 (limbs_val mod.m)) mod).1 = -1 := by
  have hm : is_limbs 8 mod.m := by
    rcases hmod with rfl | rfl <;> decide
  obtain ⟨hz, hv⟩ := u256_from_bytes_spec p hp
  obtain ⟨hb, -⟩ := u256_sub_borrow (u256_from_bytes p) mod.m 8 hz hm
  rw [hv] at hb
  refine ⟨?_, ?_, ?_, ?_⟩
  · rw [← hb]
    by_cases h : (u256_sub (u256_from_bytes p) mod.m).2 = 1 <;> simp [m256_from_bytes, h]
  · rw [← Nat.not_lt, ← hb]
    by_cases h : (u256_sub (u256_from_bytes p) mod.m).2 = 1 <;> simp [m256_from_bytes, h]
  · rcases hmod with rfl | rfl <;> decide
  · rcases hmod with rfl | rfl <;> decide

set_option maxRecDepth 20000 in
/-- C3 at a concrete input: the string `00 .. 00 01` under `p256_p`. -/
theorem m256_from_bytes_accepts_iff_below_modulus_witness :
    is_bytes 32 (List.replicate 31 0 ++ [1]) ∧
    (((m256_from_bytes (List.replicate 31 0 ++ [1]) p256_p).1 = 0 ↔
        be_val (List.replicate 31 0 ++ [1]) < limbs_val p256_p.m) ∧
      ((m256_from_bytes (List.replicate 31 0 ++ [1]) p256_p).1 = -1 ↔
        limbs_val p256_p.m ≤ be_val (List.replicate 31 0 ++ [1])) ∧
      (m256_from_bytes (be_bytes32 (limbs_val p256_p.m - 1)) p256_p).1 = 0 ∧
      (m256_from_bytes (be_bytes32 (limbs_val p256_p.m)) p256_p).1 = -1) :=
  ⟨by decide, m256_from_bytes_accepts_iff_below_modulus p256_p (Or.inl rfl)
    (List.replicate 31 0 ++ [1]) (by decide)⟩

/-- C10, the failing input.  For the P-256 base point and the scalar 0, `scalar_mult`
returns the base point unchanged, which is not the pair `(0, 0)` that `point_to_affine`
returns for a point with `Z = 0`. -/
theorem scalar_mult_zero_returns_input :
    scalar_mult
      [0xD898C296, 0xF4A13945, 0x2DEB33A0, 0x77037D81, 0x63A440F2, 0xF8BCE6E5, 0xE12C4247, 0x6B17D1F2]
      [0x37BF51F5, 0xCBB64068, 0x6B315ECE, 0x2BCE3357, 0x7C0F9E16, 0x8EE7EB4A, 0xFE1A7F9B, 0x4FE342E2]
      (u256_set32 0)
      = ([0xD898C296, 0xF4A13945, 0x2DEB33A0, 0x77037D81, 0x63A440F2, 0xF8BCE6E5, 0xE12C4247, 0x6B17D1F2],
         [0x37BF51F5, 0xCBB64068, 0x6B315ECE, 0x2BCE3357, 0x7C0F9E16, 0x8EE7EB4A, 0xFE1A7F9B, 0x4FE342E2]) ∧
    (∀ X Y A, point_to_affine { X := X, Y := Y, Z := u256_set32 0 } A
      = { x := List.replicate 8 0, y := List.replicate 8 0 }) ∧
    scalar_mult
      [0xD898C296, 0xF4A13945, 0x2DEB33A0, 0x77037D81, 0x63A440F2, 0xF8BCE6E5, 0xE12C4247, 0x6B17D1F2]
      [0x37BF51F5, 0xCBB64068, 0x6B315ECE, 0x2BCE3357, 0x7C0F9E16, 0x8EE7EB4A, 0xFE1A7F9B, 0x4FE342E2]
      (u256_set32 0)
      ≠ (List.replicate 8 0, List.replicate 8 0) := by
  refine ⟨rfl, ?_, by decide⟩
  intro X Y A
  rfl

end P256m

namespace Pake

/-- A successful run, unfolded: the intermediate points and the digest exist and the
result is built from them. -/
lemma computeSecretAndVerifiersFromY_some {G : Type} (B : Backend G) (self : Spake2p G)
    (w1 : Nat) (X Y : G) (d : Derived G)
    (h : computeSecretAndVerifiersFromY B self w1 X Y = some d) :
    ∃ t1 t2 Yprime digest,
      B.EC_POINT_mul self.N self.w0 = some t1 ∧
      B.EC_POINT_invert t1 = some t2 ∧
      B.EC_POINT_add Y t2 = some Yprime ∧
      B.EC_POINT_mul Yprime self.random = some d.Z ∧
      B.EC_POINT_mul Yprime w1 = some d.V ∧
      d.transcript = self.context
        ++ byte_range (EC_POINT_point2oct (B.point2oct X) (List.replicate 100 0)).1 0
            (EC_POINT_point2oct (B.point2oct X) (List.replicate 100 0)).2
        ++ byte_range (EC_POINT_point2oct (B.point2oct Y) (List.replicate 100 0)).1 0
            (EC_POINT_point2oct (B.point2oct Y) (List.replicate 100 0)).2
        ++ byte_range (EC_POINT_point2oct (B.point2oct d.Z) (List.replicate 100 0)).1 0
            (EC_POINT_point2oct (B.point2oct d.Z) (List.replicate 100 0)).2
        ++ byte_range (EC_POINT_point2oct (B.point2oct d.V) (List.replicate 100 0)).1 0
            (EC_POINT_point2oct (B.point2oct d.V) (List.replicate 100 0)).2
        ++ B.BN_bn2bin self.w0 ∧
      B.EVP_DigestFinal_ex d.transcript = some digest ∧
      d.hash = write_buf (List.replicate 32 0) digest ∧
      d.Ke = byte_range d.hash 16 32 ∧ d.hAY = byte_range d.hash 0 16 ∧
      d.hBX = byte_range d.hash 0 16 := by
  unfold computeSecretAndVerifiersFromY at h
  split at h
  · exact absurd h (by simp)
  · simp only [Option.bind_eq_some] at h
    obtain ⟨t1, h1, t2, h2, Yp, h3, Z, h4, V, h5, h6⟩ := h
    split at h6
    · exact absurd h6 (by simp)
    · split at h6
      · exact absurd h6 (by simp)
      · split at h6
        · exact absurd h6 (by simp)
        · simp only [Option.bind_eq_some] at h6
          obtain ⟨dg, h7, h8⟩ := h6
          simp only [Option.some.injEq] at h8
          subst h8
          exact ⟨t1, t2, Yp, dg, h1, h2, h3, h4, h5, rfl, h7, rfl, rfl, rfl, rfl⟩

lemma byte_range_point2oct (enc : List Nat) (h : enc.length ≤ 100) :
    byte_range (EC_POINT_point2oct enc (List.replicate 100 0)).1 0
      (EC_POINT_point2oct enc (List.replicate 100 0)).2 = enc := by
  simp [EC_POINT_point2oct, h, byte_range, write_buf]

lemma write_buf_full (buf d : List Nat) (h : d.length = buf.length) : write_buf buf d = d := by
  simp [write_buf, h]

/-- C4.  Over a backend whose point operations are the operations of a commutative group,
whenever `computeSecretAndVerifiersFromY` returns true its two derived points are
`Z = random * (Y - w0 * N)` and `V = w1 * (Y - w0 * N)`. -/
theorem computeSecretAndVerifiersFromY_derived_points {G : Type} [AddCommGroup G]
    (B : Backend G) (hB : B.group_ops) (self : Spake2p G) (w1 : Nat) (X Y : G) (d : Derived G)
    (h : computeSecretAndVerifiersFromY B self w1 X Y = some d) :
    d.Z = self.random • (Y - self.w0 • self.N) ∧ d.V = w1 • (Y - self.w0 • self.N) := by
  obtain ⟨t1, t2, Yp, dg, h1, h2, h3, h4, h5, -⟩ :=
    computeSecretAndVerifiersFromY_some B self w1 X Y d h
  obtain ⟨hmul, hinv, hadd⟩ := hB
  have e1 := hmul _ _ _ h1
  have e2 := hinv _ _ h2
  have e3 := hadd _ _ _ h3
  have e4 := hmul _ _ _ h4
  have e5 := hmul _ _ _ h5
  have eY : Yp = Y - self.w0 • self.N := by rw [e3, e2, e1, sub_eq_add_neg]
  rw [e4, e5, eY]
  exact ⟨rfl, rfl⟩

set_option maxRecDepth 20000 in
/-- C4 on the toy instance: integers as the group, `w1 = 7`, `X = 11`, `Y = 13`. -/
theorem computeSecretAndVerifiersFromY_derived_points_witness :
    toy_backend.group_ops ∧
    computeSecretAndVerifiersFromY toy_backend toy_state 7 11 13 = some toy_derived ∧
    (toy_derived.Z = toy_state.random • ((13 : Int) - toy_state.w0 • toy_state.N) ∧
      toy_derived.V = 7 • ((13 : Int) - toy_state.w0 • toy_state.N)) :=
  have hB : toy_backend.group_ops := by
    refine ⟨?_, ?_, ?_⟩ <;> intros <;> simp_all [toy_backend]
  ⟨hB, by rfl,
    computeSecretAndVerifiersFromY_derived_points toy_backend hB toy_state 7 11 13 toy_derived
      (by rfl)⟩

/-- C5.  When every point encoding fits the 100-byte buffers, a run that returns true has
hashed exactly `context ++ enc(X) ++ enc(Y) ++ enc(Z) ++ enc(V) ++ bytes(w0)`, and the
digest it splits is the digest of that string. -/
theorem computeSecretAndVerifiersFromY_transcript {G : Type} (B : Backend G)
    (henc : ∀ P, (B.point2oct P).length ≤ 100) (self : Spake2p G) (w1 : Nat) (X Y : G)
    (d : Derived G) (h : computeSecretAndVerifiersFromY B self w1 X Y = some d) :
    d.transcript = self.context ++ B.point2oct X ++ B.point2oct Y ++ B.point2oct d.Z
      ++ B.point2oct d.V ++ B.BN_bn2bin self.w0 ∧
    ∃ digest, B.EVP_DigestFinal_ex d.transcript = some digest ∧
      d.hash = write_buf (List.replicate 32 0) digest := by
  obtain ⟨t1, t2, Yp, dg, -, -, -, -, -, ht, hd, hh, -⟩ :=
    computeSecretAndVerifiersFromY_some B self w1 X Y d h
  rw [byte_range_point2oct _ (henc X), byte_range_point2oct _ (henc Y),
    byte_range_point2oct _ (henc d.Z), byte_range_point2oct _ (henc d.V)] at ht
  exact ⟨ht, dg, hd, hh⟩

set_option maxRecDepth 20000 in
/-- C5 on the toy instance, whose encodings are 65 bytes long. -/
theorem computeSecretAndVerifiersFromY_transcript_witness :
    (∀ P, (toy_backend.point2oct P).length ≤ 100) ∧
    computeSecretAndVerifiersFromY toy_backend toy_state 7 11 13 = some toy_derived ∧
    (toy_derived.transcript = toy_state.context ++ toy_backend.point2oct 11
        ++ toy_backend.point2oct 13 ++ toy_backend.point2oct toy_derived.Z
        ++ toy_backend.point2oct toy_derived.V ++ toy_backend.BN_bn2bin toy_state.w0 ∧
      ∃ digest, toy_backend.EVP_DigestFinal_ex toy_derived.transcript = some digest ∧
        toy_derived.hash = write_buf (List.replicate 32 0) digest) :=
  ⟨fun P => by simp [toy_backend], by rfl,
    computeSecretAndVerifiersFromY_transcript toy_backend (fun P => by simp [toy_backend])
      toy_state 7 11 13 toy_derived (by rfl)⟩

/-- C6.  When the digest function produces 32 bytes, a run that returns true has, for the
digest `h` of its transcript, `Ke = h[16..32)`, `hAY = h[0..16)` and `hBX = h[0..16)`; the
two verifiers are equal and each of the three outputs is 16 bytes long. -/
theorem computeSecretAndVerifiersFromY_split {G : Type} (B : Backend G)
    (hlen : ∀ t dg, B.EVP_DigestFinal_ex t = some dg → dg.length = 32) (self : Spake2p G)
    (w1 : Nat) (X Y : G) (d : Derived G)
    (h : computeSecretAndVerifiersFromY B self w1 X Y = some d) :
    ∃ hsh, B.EVP_DigestFinal_ex d.transcript = some hsh ∧ hsh.length = 32 ∧
      d.Ke = byte_range hsh 16 32 ∧ d.hAY = byte_range hsh 0 16 ∧
      d.hBX = byte_range hsh 0 16 ∧ d.hAY = d.hBX ∧
      d.Ke.length = 16 ∧ d.hAY.length = 16 ∧ d.hBX.length = 16 := by
  obtain ⟨t1, t2, Yp, dg, -, -, -, -, -, -, hd, hh, hK, hA, hB⟩ :=
    computeSecretAndVerifiersFromY_some B self w1 X Y d h
  have hl := hlen _ _ hd
  rw [write_buf_full _ _ (by simp [hl])] at hh
  rw [hh] at hK hA hB
  refine ⟨dg, hd, hl, hK, hA, hB, by rw [hA, hB], ?_, ?_, ?_⟩
  · rw [hK]; simp [byte_range, hl]
  · rw [hA]; simp [byte_range, hl]
  · rw [hB]; simp [byte_range, hl]

set_option maxRecDepth 20000 in
/-- C6 on the toy instance, whose digest is 32 bytes long. -/
theorem computeSecretAndVerifiersFromY_split_witness :
    (∀ t dg, toy_backend.EVP_DigestFinal_ex t = some dg → dg.length = 32) ∧
    computeSecretAndVerifiersFromY toy_backend toy_state 7 11 13 = some toy_derived ∧
    (∃ hsh, toy_backend.EVP_DigestFinal_ex toy_derived.transcript = some hsh ∧
      hsh.length = 32 ∧
      toy_derived.Ke = byte_range hsh 16 32 ∧ toy_derived.hAY = byte_range hsh 0 16 ∧
      toy_derived.hBX = byte_range hsh 0 16 ∧ toy_derived.hAY = toy_derived.hBX ∧
      toy_derived.Ke.length = 16 ∧ toy_derived.hAY.length = 16 ∧
      toy_derived.hBX.length = 16) :=
  have hlen : ∀ t dg, toy_backend.EVP_DigestFinal_ex t = some dg → dg.length = 32 := by
    intro t dg hd
    simp only [toy_backend, Option.some.injEq] at hd
    rw [← hd]; simp
  ⟨hlen, by rfl,
    computeSecretAndVerifiersFromY_split toy_backend hlen toy_state 7 11 13 toy_derived
      (by rfl)⟩

end Pake

/-! ## Properties of the confirmation step -/

namespace SodiumSpake

lemma sodium_memcmp_eq_zero_iff (b1 b2 : List Nat) (h1 : b1.length = 32) (h2 : b2.length = 32) :
    sodium_memcmp b1 b2 32 = 0 ↔ b1 = b2 := by
  unfold sodium_memcmp
  rw [List.take_of_length_le (by omega), List.take_of_length_le (by omega)]
  by_cases h : b1 = b2 <;> simp [h]

lemma memcpy_full (dst src : List Nat) (n : Nat) (hs : src.length = n) (hd : dst.length = n) :
    memcpy dst src n = src := by
  unfold memcpy
  rw [List.take_of_length_le (by omega), List.drop_of_length_le (by omega), List.append_nil]

/-- C7.  With the 32-byte response and the 32-byte stored validator that the comparison
reads, `crypto_spake_step4` returns 0 exactly when the received verifier equals
`st.server_validator` and -1 exactly when it differs. -/
theorem crypto_spake_step4_return (n : Nat) (st : ServerState) (shared_keys : SharedKeys)
    (response3 : List Nat) (hr : response3.length = 32)
    (hv : st.server_validator.length = 32) :
    ((crypto_spake_step4 n st shared_keys response3).1 = 0 ↔
      response3 = st.server_validator) ∧
    ((crypto_spake_step4 n st shared_keys response3).1 = -1 ↔
      response3 ≠ st.server_validator) := by
  have hc := sodium_memcmp_eq_zero_iff response3 st.server_validator hr hv
  unfold crypto_spake_step4
  by_cases h : response3 = st.server_validator
  · have h0 : sodium_memcmp response3 st.server_validator 32 = 0 := hc.2 h
    rw [if_neg (not_not.mpr h0)]
    simp [h]
  · have h0 : sodium_memcmp response3 st.server_validator 32 ≠ 0 := fun e => h (hc.1 e)
    rw [if_pos h0]
    simp [h]

/-- C7 at a concrete state: the stored validator itself is sent. -/
theorem crypto_spake_step4_return_witness :
    (List.range 32).length = 32 ∧ toy_server.server_validator.length = 32 ∧
    (((crypto_spake_step4 32 toy_server toy_keys (List.range 32)).1 = 0 ↔
        List.range 32 = toy_server.server_validator) ∧
      ((crypto_spake_step4 32 toy_server toy_keys (List.range 32)).1 = -1 ↔
        List.range 32 ≠ toy_server.server_validator)) :=
  ⟨by decide, by decide,
    crypto_spake_step4_return 32 toy_server toy_keys (List.range 32) (by decide) (by decide)⟩

/-- C8.  On both exit paths of `crypto_spake_step4` every byte of the state `st` is zero
on return (and the state keeps its size). -/
theorem crypto_spake_step4_zeroizes (n : Nat) (st : ServerState) (shared_keys : SharedKeys)
    (response3 : List Nat) :
    (crypto_spake_step4 n st shared_keys response3).2.1.bytes
      = List.replicate st.bytes.length 0 := by
  have hz : (sodium_memzero st).bytes = List.replicate st.bytes.length 0 := by
    simp only [sodium_memzero, ServerState.bytes, List.map_const', List.length_append,
      List.append_replicate_replicate]
  unfold crypto_spake_step4
  split <;> exact hz

/-- C9.  With 32-byte verifiers and key arrays of `crypto_spake_SHAREDKEYBYTES` bytes: on a
mismatch the caller's `shared_keys` is returned unchanged; on a match its `client_sk` and
`server_sk` are the values `st.shared_keys` held on entry. -/
theorem crypto_spake_step4_keys (n : Nat) (st : ServerState) (shared_keys : SharedKeys)
    (response3 : List Nat) (hr : response3.length = 32)
    (hv : st.server_validator.length = 32)
    (hc : st.shared_keys.client_sk.length = n) (hs : st.shared_keys.server_sk.length = n)
    (hc2 : shared_keys.client_sk.length = n) (hs2 : shared_keys.server_sk.length = n) :
    (response3 ≠ st.server_validator →
      (crypto_spake_step4 n st shared_keys response3).2.2 = shared_keys) ∧
    (response3 = st.server_validator →
      (crypto_spake_step4 n st shared_keys response3).2.2.client_sk
        = st.shared_keys.client_sk ∧
      (crypto_spake_step4 n st shared_keys response3).2.2.server_sk
        = st.shared_keys.server_sk) := by
  have hcmp := sodium_memcmp_eq_zero_iff response3 st.server_validator hr hv
  unfold crypto_spake_step4
  constructor
  · intro h
    have h0 : sodium_memcmp response3 st.server_validator 32 ≠ 0 := fun e => h (hcmp.1 e)
    rw [if_pos h0]
  · intro h
    have h0 : sodium_memcmp response3 st.server_validator 32 = 0 := hcmp.2 h
    rw [if_neg (not_not.mpr h0)]
    exact ⟨memcpy_full _ _ n hc hc2, memcpy_full _ _ n hs hs2⟩

/-- C9 at a concrete state with 32-byte keys. -/
theorem crypto_spake_step4_keys_witness :
    ((List.range 32 ≠ toy_server.server_validator →
      (crypto_spake_step4 32 toy_server toy_keys (List.range 32)).2.2 = toy_keys) ∧
    (List.range 32 = toy_server.server_validator →
      (crypto_spake_step4 32 toy_server toy_keys (List.range 32)).2.2.client_sk
        = toy_server.shared_keys.client_sk ∧
      (crypto_spake_step4 32 toy_server toy_keys (List.range 32)).2.2.server_sk
        = toy_server.shared_keys.server_sk)) ∧
    (crypto_spake_step4 32 toy_server toy_keys (List.range 32)).2.2
      = toy_server.shared_keys :=
  ⟨crypto_spake_step4_keys 32 toy_server toy_keys (List.range 32) (by decide) (by decide)
    (by decide) (by decide) (by decide) (by decide), by decide⟩

end SodiumSpake

/-! ## Constants, selection and comparison -/

namespace P256m

set_option maxRecDepth 20000 in
set_option exponentiation.threshold 1024 in
/-- C11.  The stored constants of both contexts are consistent: `m` is the P-256 field
prime, respectively the P-256 group order, `R2` is `2^512 mod m`, and `ni * m` is `-1`
modulo `2^32`, limbs being read least significant first. -/
theorem p256_constants_consistent :
    limbs_val p256_p.m = 2 ^ 256 - 2 ^ 224 + 2 ^ 192 + 2 ^ 96 - 1 ∧
    limbs_val p256_n.m = 0xFFFFFFFF00000000FFFFFFFFFFFFFFFFBCE6FAADA7179E84F3B9CAC2FC632551 ∧
    limbs_val p256_p.R2 = 2 ^ 512 % limbs_val p256_p.m ∧
    limbs_val p256_n.R2 = 2 ^ 512 % limbs_val p256_n.m ∧
    (p256_p.ni * limbs_val p256_p.m + 1) % 2 ^ 32 = 0 ∧
    (p256_n.ni * limbs_val p256_n.m + 1) % 2 ^ 32 = 0 ∧
    p256_p.ni < 2 ^ 32 ∧ p256_n.ni < 2 ^ 32 ∧
    is_limbs 8 p256_p.m ∧ is_limbs 8 p256_p.R2 ∧ is_limbs 8 p256_n.m ∧ is_limbs 8 p256_n.R2 := by
  decide

lemma u256_cmov_loop_ones (z : List Nat) : ∀ x : List Nat, z.length = x.length →
    (∀ l ∈ x, l < 2 ^ 32) → u256_cmov_loop (2 ^ 32 - 1) z x = x := by
  induction z with
  | nil => intro x hl _; cases x with
    | nil => rfl
    | cons b xs => simp at hl
  | cons a zs ih =>
    intro x hl hx
    cases x with
    | nil => simp at hl
    | cons b xs =>
      have hb : b < 2 ^ 32 := hx b (by simp)
      have hn : not32 (2 ^ 32 - 1) = 0 := by decide
      simp only [u256_cmov_loop, hn, Nat.and_zero, Nat.zero_or,
        Nat.and_pow_two_sub_one_eq_mod, Nat.mod_eq_of_lt hb]
      rw [ih xs (by simpa using hl) (fun l h => hx l (by simp [h]))]

lemma u256_cmov_loop_zero (z : List Nat) : ∀ x : List Nat, z.length = x.length →
    (∀ l ∈ z, l < 2 ^ 32) → u256_cmov_loop 0 z x = z := by
  induction z with
  | nil => intro x hl _; cases x with
    | nil => rfl
    | cons b xs => simp at hl
  | cons a zs ih =>
    intro x hl hz
    cases x with
    | nil => simp at hl
    | cons b xs =>
      have ha : a < 2 ^ 32 := hz a (by simp)
      have hn : not32 0 = 2 ^ 32 - 1 := by decide
      simp only [u256_cmov_loop, hn, Nat.and_zero, Nat.or_zero,
        Nat.and_pow_two_sub_one_eq_mod, Nat.mod_eq_of_lt ha]
      rw [ih xs (by simpa using hl) (fun l h => hz l (by simp [h]))]

/-- C13.  For all 256-bit `dst` and `src`, `u256_cmov(dst, src, 1)` leaves `dst` equal to
`src` in every limb and `u256_cmov(dst, src, 0)` leaves `dst` unchanged. -/
theorem u256_cmov_selects (dst src : U256) (hd : is_limbs 8 dst) (hs : is_limbs 8 src) :
    u256_cmov dst src 1 = src ∧ u256_cmov dst src 0 = dst := by
  have hl : dst.length = src.length := hd.1.trans hs.1.symm
  constructor
  · have hm : (2 ^ 32 - 1 % 2 ^ 32) % 2 ^ 32 = 2 ^ 32 - 1 := by decide
    simp only [u256_cmov, hm]
    exact u256_cmov_loop_ones dst src hl hs.2
  · have hm : (2 ^ 32 - 0 % 2 ^ 32) % 2 ^ 32 = 0 := by decide
    simp only [u256_cmov, hm]
    exact u256_cmov_loop_zero dst src hl hd.2

/-- C13 at a concrete pair of 256-bit values. -/
theorem u256_cmov_selects_witness :
    is_limbs 8 p256_p.m ∧ is_limbs 8 p256_n.m ∧
    (u256_cmov p256_p.m p256_n.m 1 = p256_n.m ∧ u256_cmov p256_p.m p256_n.m 0 = p256_p.m) :=
  ⟨by decide, by decide, u256_cmov_selects p256_p.m p256_n.m (by decide) (by decide)⟩

lemma nat_or_eq_zero (a b : Nat) : a ||| b = 0 ↔ a = 0 ∧ b = 0 := by
  constructor
  · intro h
    have hb : ∀ i, (a ||| b).testBit i = false := by intro i; rw [h]; simp
    constructor
    · apply Nat.eq_of_testBit_eq
      intro i
      have := hb i
      rw [Nat.testBit_or, Bool.or_eq_false_iff] at this
      simpa using this.1
    · apply Nat.eq_of_testBit_eq
      intro i
      have := hb i
      rw [Nat.testBit_or, Bool.or_eq_false_iff] at this
      simpa using this.2
  · rintro ⟨rfl, rfl⟩; rfl

lemma foldl_or_eq_zero (x : List Nat) : ∀ d : Nat,
    x.foldl (fun diff limb => diff ||| limb) d = 0 ↔ d = 0 ∧ ∀ l ∈ x, l = 0 := by
  induction x with
  | nil => intro d; simp
  | cons a xs ih =>
    intro d
    rw [List.foldl_cons, ih, nat_or_eq_zero]
    simp only [List.mem_cons, forall_eq_or_imp]
    tauto

lemma limbs_val_eq_zero (x : List Nat) : limbs_val x = 0 ↔ ∀ l ∈ x, l = 0 := by
  induction x with
  | nil => simp [limbs_val]
  | cons a xs ih =>
    simp only [limbs_val, List.mem_cons, forall_eq_or_imp, ← ih]
    constructor
    · intro h; constructor <;> omega
    · rintro ⟨h1, h2⟩; simp [h1, h2]

lemma u256_diff_loop_eq_zero (x : List Nat) : ∀ (y : List Nat) (d : Nat),
    x.length = y.length → (u256_diff_loop x y d = 0 ↔ d = 0 ∧ x = y) := by
  induction x with
  | nil =>
    intro y d hl
    cases y with
    | nil => simp [u256_diff_loop]
    | cons b ys => simp at hl
  | cons a xs ih =>
    intro y d hl
    cases y with
    | nil => simp at hl
    | cons b ys =>
      simp only [u256_diff_loop]
      rw [ih ys _ (by simpa using hl), nat_or_eq_zero, Nat.xor_eq_zero]
      simp only [List.cons.injEq]
      tauto

/-- C14, the counterexample.  On `x = 0` the zero test returns 0 (not a nonzero value) and
on a nonzero `x` it returns a nonzero value; on equal inputs the comparison returns 0 and
on different inputs a nonzero value. -/
theorem u256_diff_signals_at_inputs :
    u256_diff0 (u256_set32 0) = 0 ∧ u256_diff0 (u256_set32 1) ≠ 0 ∧
    u256_diff (u256_set32 5) (u256_set32 5) = 0 ∧
    u256_diff (u256_set32 5) (u256_set32 6) ≠ 0 := by
  decide

/-- C14, amended.  The comparison signals are zero exactly when the tested condition is
true: for all 256-bit `x`, `y`, `u256_diff0(x)` is 0 if and only if `x = 0`, and
`u256_diff(x, y)` is 0 if and only if `x = y`. -/
theorem u256_diff_zero_iff (x y : U256) (hx : is_limbs 8 x) (hy : is_limbs 8 y) :
    (u256_diff0 x = 0 ↔ limbs_val x = 0) ∧ (u256_diff x y = 0 ↔ x = y) := by
  constructor
  · unfold u256_diff0
    rw [foldl_or_eq_zero, limbs_val_eq_zero]
    simp
  · unfold u256_diff
    rw [u256_diff_loop_eq_zero x y 0 (hx.1.trans hy.1.symm)]
    simp

/-- C14, amended, at concrete 256-bit values. -/
theorem u256_diff_zero_iff_witness :
    is_limbs 8 p256_p.m ∧ is_limbs 8 p256_n.m ∧
    ((u256_diff0 p256_p.m = 0 ↔ limbs_val p256_p.m = 0) ∧
      (u256_diff p256_p.m p256_n.m = 0 ↔ p256_p.m = p256_n.m)) :=
  ⟨by decide, by decide, u256_diff_zero_iff p256_p.m p256_n.m (by decide) (by decide)⟩

end P256m

namespace SodiumSpake

/-- C12, the counterexample.  Two responses that agree on their first 16 bytes and differ
only in later bytes get different verdicts from `crypto_spake_step4`. -/
theorem crypto_spake_step4_reads_beyond_16 :
    (List.range 32).take 16 = (List.range 16 ++ List.replicate 16 0).take 16 ∧
    (crypto_spake_step4 32 toy_server toy_keys (List.range 32)).1 = 0 ∧
    (crypto_spake_step4 32 toy_server toy_keys (List.range 16 ++ List.replicate 16 0)).1
      = -1 := by
  decide

/-- C12, amended.  The verdict of `crypto_spake_step4` depends on exactly the first 32
bytes of the received response and of the stored validator: it is 0 if and only if those
32 bytes agree, so responses, and states, that agree on their first 32 bytes get the same
verdict. -/
theorem crypto_spake_step4_verdict_of_32 (n : Nat) (st1 st2 : ServerState)
    (k1 k2 : SharedKeys) (r1 r2 : List Nat) (hr : r1.take 32 = r2.take 32)
    (hv : st1.server_validator.take 32 = st2.server_validator.take 32) :
    (crypto_spake_step4 n st1 k1 r1).1 = (crypto_spake_step4 n st2 k2 r2).1 ∧
    ((crypto_spake_step4 n st1 k1 r1).1 = 0 ↔
      r1.take 32 = st1.server_validator.take 32) := by
  unfold crypto_spake_step4 sodium_memcmp
  rw [hr, hv]
  by_cases h : List.take 32 r2 = List.take 32 st2.server_validator <;> simp [h]

/-- C12, amended, at concrete responses that agree on their first 32 bytes. -/
theorem crypto_spake_step4_verdict_of_32_witness :
    (List.range 32).take 32 = (List.range 40).take 32 ∧
    (crypto_spake_step4 32 toy_server toy_keys (List.range 32)).1
      = (crypto_spake_step4 32 toy_server toy_keys (List.range 40)).1 ∧
    ((crypto_spake_step4 32 toy_server toy_keys (List.range 32)).1 = 0 ↔
      (List.range 32).take 32 = toy_server.server_validator.take 32) :=
  ⟨by decide, crypto_spake_step4_verdict_of_32 32 toy_server toy_server toy_keys toy_keys
    (List.range 32) (List.range 40) (by decide) rfl⟩

end SodiumSpake

/-! ## Addition and subtraction -/

namespace P256m

lemma u256_add_limb (xi yi c : Nat) (hx : xi < 2 ^ 32) (hy : yi < 2 ^ 32) (hc : c ≤ 1) :
    (((xi + yi + c) % 2 ^ 64) >>> 32) % 2 ^ 32 ≤ 1 ∧
    ((xi + yi + c) % 2 ^ 64) % 2 ^ 32 + ((((xi + yi + c) % 2 ^ 64) >>> 32) % 2 ^ 32) * 2 ^ 32
      = xi + yi + c := by
  rw [Nat.shiftRight_eq_div_pow]
  norm_num at hx hy ⊢
  omega

lemma u256_add_loop_spec (x : List Nat) : ∀ (y : List Nat) (c : Nat),
    x.length = y.length → (∀ l ∈ x, l < 2 ^ 32) → (∀ l ∈ y, l < 2 ^ 32) → c ≤ 1 →
    (u256_add_loop x y c).2 ≤ 1 ∧ (u256_add_loop x y c).1.length = x.length ∧
    (∀ l ∈ (u256_add_loop x y c).1, l < 2 ^ 32) ∧
    limbs_val (u256_add_loop x y c).1 + (u256_add_loop x y c).2 * 2 ^ (32 * x.length)
      = limbs_val x + limbs_val y + c := by
  induction x with
  | nil =>
    intro y c hl _ _ hc
    cases y with
    | nil => simp [u256_add_loop, limbs_val, hc]
    | cons b ys => simp at hl
  | cons a xs ih =>
    intro y c hl hx hy hc
    cases y with
    | nil => simp at hl
    | cons b ys =>
      have ha : a < 2 ^ 32 := hx a (by simp)
      have hb : b < 2 ^ 32 := hy b (by simp)
      obtain ⟨h1, h2⟩ := u256_add_limb a b c ha hb hc
      have hl2 : xs.length = ys.length := by simpa using hl
      obtain ⟨i1, i2, i3, i4⟩ := ih ys _ hl2 (fun l h => hx l (by simp [h]))
        (fun l h => hy l (by simp [h])) h1
      simp only [u256_add_loop, limbs_val, List.length_cons]
      refine ⟨i1, by rw [i2], ?_, ?_⟩
      · intro l hl
        rcases List.mem_cons.1 hl with h | h
        · rw [h]; exact Nat.mod_lt _ (by norm_num)
        · exact i3 l h
      · have hp : 2 ^ (32 * (xs.length + 1)) = 2 ^ 32 * 2 ^ (32 * xs.length) := by
          rw [Nat.mul_succ, Nat.pow_add, Nat.mul_comm]
        rw [hp]
        generalize (u256_add_loop xs ys _) = r at i1 i2 i3 i4 ⊢
        generalize ((a + b + c) % 2 ^ 64) = d at h1 h2 i4 ⊢
        have e : r.2 * (2 ^ 32 * 2 ^ (32 * xs.length)) = 2 ^ 32 * (r.2 * 2 ^ (32 * xs.length)) := by
          ring
        rw [e]
        generalize r.2 * 2 ^ (32 * xs.length) = t at i4 ⊢
        generalize limbs_val r.1 = v at i4 ⊢
        generalize limbs_val ys = w at i4 ⊢
        generalize limbs_val xs = u at i4 ⊢
        generalize ((d >>> 32) % 2 ^ 32) = k at h2 i4 ⊢
        norm_num at h2 ⊢
        omega

/-- C15.  For all 256-bit `x`, `y`: `u256_add` returns a carry `c` in `{0, 1}` and a 256-bit
`z` with `z + c * 2^256 = x + y`; `u256_sub` returns a borrow `b` in `{0, 1}` and a 256-bit
`z` with `z - b * 2^256 = x - y`, so `b = 0` exactly when `x >= y` and `b = 1` exactly
when `x < y`. -/
theorem u256_add_sub_exact (x y : U256) (hx : is_limbs 8 x) (hy : is_limbs 8 y) :
    ((u256_add x y).2 = 0 ∨ (u256_add x y).2 = 1) ∧ is_limbs 8 (u256_add x y).1 ∧
    limbs_val (u256_add x y).1 + (u256_add x y).2 * 2 ^ 256 = limbs_val x + limbs_val y ∧
    ((u256_sub x y).2 = 0 ∨ (u256_sub x y).2 = 1) ∧ is_limbs 8 (u256_sub x y).1 ∧
    (limbs_val (u256_sub x y).1 : Int) - ((u256_sub x y).2 : Int) * 2 ^ 256
      = (limbs_val x : Int) - (limbs_val y : Int) ∧
    ((u256_sub x y).2 = 0 ↔ limbs_val y ≤ limbs_val x) ∧
    ((u256_sub x y).2 = 1 ↔ limbs_val x < limbs_val y) := by
  have hl : x.length = y.length := hx.1.trans hy.1.symm
  obtain ⟨a1, a2, a3, a4⟩ := u256_add_loop_spec x y 0 hl hx.2 hy.2 (by omega)
  obtain ⟨s1, s2, s3, s4⟩ := u256_sub_loop_spec x y 0 hl hx.2 hy.2 (by omega)
  obtain ⟨b1, -⟩ := u256_sub_borrow x y 8 hx hy
  rw [hx.1] at a2 a4 s2 s4
  unfold u256_add
  unfold u256_sub at b1 ⊢
  refine ⟨by omega, ⟨a2, a3⟩, by simpa using a4, by omega, ⟨s2, s3⟩, ?_, ?_, b1⟩
  · have : ((limbs_val (u256_sub_loop x y 0).1 + limbs_val y + 0 : Nat) : Int)
        = ((limbs_val x + (u256_sub_loop x y 0).2 * 2 ^ (32 * 8) : Nat) : Int) := by rw [s4]
    push_cast at this
    norm_num at this ⊢
    linarith
  · rw [← Nat.not_lt, ← b1]
    omega

/-- C15 at a concrete pair: the two moduli. -/
theorem u256_add_sub_exact_witness :
    is_limbs 8 p256_p.m ∧ is_limbs 8 p256_n.m ∧
    ((u256_add p256_p.m p256_n.m).2 = 0 ∨ (u256_add p256_p.m p256_n.m).2 = 1) ∧
    is_limbs 8 (u256_add p256_p.m p256_n.m).1 ∧
    limbs_val (u256_add p256_p.m p256_n.m).1 + (u256_add p256_p.m p256_n.m).2 * 2 ^ 256
      = limbs_val p256_p.m + limbs_val p256_n.m ∧
    ((u256_sub p256_p.m p256_n.m).2 = 0 ∨ (u256_sub p256_p.m p256_n.m).2 = 1) ∧
    is_limbs 8 (u256_sub p256_p.m p256_n.m).1 ∧
    (limbs_val (u256_sub p256_p.m p256_n.m).1 : Int)
        - ((u256_sub p256_p.m p256_n.m).2 : Int) * 2 ^ 256
      = (limbs_val p256_p.m : Int) - (limbs_val p256_n.m : Int) ∧
    ((u256_sub p256_p.m p256_n.m).2 = 0 ↔ limbs_val p256_n.m ≤ limbs_val p256_p.m) ∧
    ((u256_sub p256_p.m p256_n.m).2 = 1 ↔ limbs_val p256_p.m < limbs_val p256_n.m) :=
  ⟨by decide, by decide, u256_add_sub_exact p256_p.m p256_n.m (by decide) (by decide)⟩

end P256m

/-! ## Big-endian import and export -/

namespace P256m

lemma is_limbs_eight (z : List Nat) (hz : is_limbs 8 z) :
    ∃ z0 z1 z2 z3 z4 z5 z6 z7, z = [z0, z1, z2, z3, z4, z5, z6, z7] ∧ z0 < 2 ^ 32 ∧
      z1 < 2 ^ 32 ∧ z2 < 2 ^ 32 ∧ z3 < 2 ^ 32 ∧ z4 < 2 ^ 32 ∧ z5 < 2 ^ 32 ∧ z6 < 2 ^ 32 ∧
      z7 < 2 ^ 32 := by
  obtain ⟨hlen, hb⟩ := hz
  iterate 8 (rcases z with _ | ⟨_, z⟩; · simp at hlen)
  rcases z with _ | ⟨_, z⟩
  swap; · simp at hlen
  simp only [List.mem_cons, forall_eq_or_imp, List.mem_nil_iff] at hb
  obtain ⟨h0, h1, h2, h3, h4, h5, h6, h7, -⟩ := hb
  exact ⟨_, _, _, _, _, _, _, _, rfl, h0, h1, h2, h3, h4, h5, h6, h7⟩

lemma u256_to_bytes_limb_val (w : Nat) (hw : w < 2 ^ 32) :
    (w >>> 24) % 2 ^ 8 = w / 2 ^ 24 ∧ (w >>> 16) % 2 ^ 8 = w / 2 ^ 16 % 2 ^ 8 ∧
    (w >>> 8) % 2 ^ 8 = w / 2 ^ 8 % 2 ^ 8 := by
  simp only [Nat.shiftRight_eq_div_pow]
  norm_num at hw ⊢
  omega

lemma u256_to_bytes_eight (z0 z1 z2 z3 z4 z5 z6 z7 : Nat) :
    u256_to_bytes [z0, z1, z2, z3, z4, z5, z6, z7] =
      u256_to_bytes_limb z7 ++ u256_to_bytes_limb z6 ++ u256_to_bytes_limb z5
        ++ u256_to_bytes_limb z4 ++ u256_to_bytes_limb z3 ++ u256_to_bytes_limb z2
        ++ u256_to_bytes_limb z1 ++ u256_to_bytes_limb z0 := by
  simp [u256_to_bytes, List.range, List.range.loop]

lemma u256_to_bytes_spec (z : List Nat) (hz : is_limbs 8 z) :
    is_bytes 32 (u256_to_bytes z) ∧ be_val (u256_to_bytes z) = limbs_val z := by
  obtain ⟨z0, z1, z2, z3, z4, z5, z6, z7, rfl, h0, h1, h2, h3, h4, h5, h6, h7⟩ :=
    is_limbs_eight z hz
  rw [u256_to_bytes_eight]
  simp only [u256_to_bytes_limb, Nat.shiftRight_eq_div_pow]
  refine ⟨⟨rfl, ?_⟩, ?_⟩
  · intro b hb
    simp only [List.cons_append, List.nil_append, List.mem_cons, List.mem_nil_iff,
      or_false] at hb
    rcases hb with h | h | h | h | h | h | h | h | h | h | h | h | h | h | h | h | h | h | h | h
      | h | h | h | h | h | h | h | h | h | h | h | h <;>
      (rw [h]; exact Nat.mod_lt _ (by norm_num))
  · simp only [be_val, limbs_val, List.cons_append, List.nil_append, List.foldl]
    norm_num at *
    omega

lemma is_bytes_thirty_two (p : List Nat) (hp : is_bytes 32 p) :
    ∃ b0 b1 b2 b3 b4 b5 b6 b7 b8 b9 b10 b11 b12 b13 b14 b15 b16 b17 b18 b19 b20 b21 b22 b23
      b24 b25 b26 b27 b28 b29 b30 b31,
      p = [b0, b1, b2, b3, b4, b5, b6, b7, b8, b9, b10, b11, b12, b13, b14, b15, b16, b17,
        b18, b19, b20, b21, b22, b23, b24, b25, b26, b27, b28, b29, b30, b31] ∧
      (b0 < 2 ^ 8 ∧ b1 < 2 ^ 8 ∧ b2 < 2 ^ 8 ∧ b3 < 2 ^ 8) ∧
      (b4 < 2 ^ 8 ∧ b5 < 2 ^ 8 ∧ b6 < 2 ^ 8 ∧ b7 < 2 ^ 8) ∧
      (b8 < 2 ^ 8 ∧ b9 < 2 ^ 8 ∧ b10 < 2 ^ 8 ∧ b11 < 2 ^ 8) ∧
      (b12 < 2 ^ 8 ∧ b13 < 2 ^ 8 ∧ b14 < 2 ^ 8 ∧ b15 < 2 ^ 8) ∧
      (b16 < 2 ^ 8 ∧ b17 < 2 ^ 8 ∧ b18 < 2 ^ 8 ∧ b19 < 2 ^ 8) ∧
      (b20 < 2 ^ 8 ∧ b21 < 2 ^ 8 ∧ b22 < 2 ^ 8 ∧ b23 < 2 ^ 8) ∧
      (b24 < 2 ^ 8 ∧ b25 < 2 ^ 8 ∧ b26 < 2 ^ 8 ∧ b27 < 2 ^ 8) ∧
      (b28 < 2 ^ 8 ∧ b29 < 2 ^ 8 ∧ b30 < 2 ^ 8 ∧ b31 < 2 ^ 8) := by
  obtain ⟨hlen, hb⟩ := hp
  iterate 32 (rcases p with _ | ⟨_, p⟩; · simp at hlen)
  rcases p with _ | ⟨_, p⟩
  swap; · simp at hlen
  simp only [List.mem_cons, forall_eq_or_imp, List.mem_nil_iff] at hb
  obtain ⟨h0, h1, h2, h3, h4, h5, h6, h7, h8, h9, h10, h11, h12, h13, h14, h15, h16, h17, h18,
    h19, h20, h21, h22, h23, h24, h25, h26, h27, h28, h29, h30, h31, -⟩ := hb
  exact ⟨_, _, _, _, _, _, _, _, _, _, _, _, _, _, _, _, _, _, _, _, _, _, _, _, _, _, _, _,
    _, _, _, _, rfl, ⟨h0, h1, h2, h3⟩, ⟨h4, h5, h6, h7⟩, ⟨h8, h9, h10, h11⟩,
    ⟨h12, h13, h14, h15⟩, ⟨h16, h17, h18, h19⟩, ⟨h20, h21, h22, h23⟩, ⟨h24, h25, h26, h27⟩,
    ⟨h28, h29, h30, h31⟩⟩

lemma u256_to_bytes_limb_word (a b c d : Nat) (ha : a < 2 ^ 8) (hb : b < 2 ^ 8)
    (hc : c < 2 ^ 8) (hd : d < 2 ^ 8) :
    u256_to_bytes_limb (2 ^ 24 * a + 2 ^ 16 * b + 2 ^ 8 * c + d) = [a, b, c, d] := by
  simp only [u256_to_bytes_limb, Nat.shiftRight_eq_div_pow]
  norm_num at ha hb hc hd ⊢
  refine ⟨?_, ?_, ?_, ?_⟩ <;> omega

lemma u256_from_bytes_limb_bytes (w : Nat) (hw : w < 2 ^ 32) :
    (((w >>> 24) % 2 ^ 8) <<< 24) % 2 ^ 32 ||| (((w >>> 16) % 2 ^ 8) <<< 16) % 2 ^ 32 |||
      (((w >>> 8) % 2 ^ 8) <<< 8) % 2 ^ 32 ||| (w % 2 ^ 8) % 2 ^ 32 = w := by
  rw [u256_from_bytes_word _ _ _ _ (Nat.mod_lt _ (by norm_num)) (Nat.mod_lt _ (by norm_num))
    (Nat.mod_lt _ (by norm_num)) (Nat.mod_lt _ (by norm_num))]
  simp only [Nat.shiftRight_eq_div_pow]
  norm_num at hw ⊢
  omega

lemma u256_to_from_bytes (p : List Nat) (hp : is_bytes 32 p) :
    u256_to_bytes (u256_from_bytes p) = p := by
  obtain ⟨b0, b1, b2, b3, b4, b5, b6, b7, b8, b9, b10, b11, b12, b13, b14, b15, b16, b17, b18,
    b19, b20, b21, b22, b23, b24, b25, b26, b27, b28, b29, b30, b31, rfl, ⟨h0, h1, h2, h3⟩,
    ⟨h4, h5, h6, h7⟩, ⟨h8, h9, h10, h11⟩, ⟨h12, h13, h14, h15⟩, ⟨h16, h17, h18, h19⟩,
    ⟨h20, h21, h22, h23⟩, ⟨h24, h25, h26, h27⟩, ⟨h28, h29, h30, h31⟩⟩ :=
    is_bytes_thirty_two p hp
  simp only [u256_from_bytes, u256_from_bytes_limb, List.range, List.range.loop, List.map,
    List.getD_cons_succ, List.getD_cons_zero, Nat.reduceMul, Nat.reduceSub, Nat.reduceAdd]
  rw [u256_from_bytes_word _ _ _ _ h0 h1 h2 h3, u256_from_bytes_word _ _ _ _ h4 h5 h6 h7,
    u256_from_bytes_word _ _ _ _ h8 h9 h10 h11, u256_from_bytes_word _ _ _ _ h12 h13 h14 h15,
    u256_from_bytes_word _ _ _ _ h16 h17 h18 h19, u256_from_bytes_word _ _ _ _ h20 h21 h22 h23,
    u256_from_bytes_word _ _ _ _ h24 h25 h26 h27, u256_from_bytes_word _ _ _ _ h28 h29 h30 h31]
  rw [u256_to_bytes_eight, u256_to_bytes_limb_word _ _ _ _ h0 h1 h2 h3,
    u256_to_bytes_limb_word _ _ _ _ h4 h5 h6 h7, u256_to_bytes_limb_word _ _ _ _ h8 h9 h10 h11,
    u256_to_bytes_limb_word _ _ _ _ h12 h13 h14 h15,
    u256_to_bytes_limb_word _ _ _ _ h16 h17 h18 h19,
    u256_to_bytes_limb_word _ _ _ _ h20 h21 h22 h23,
    u256_to_bytes_limb_word _ _ _ _ h24 h25 h26 h27,
    u256_to_bytes_limb_word _ _ _ _ h28 h29 h30 h31]
  rfl

lemma u256_from_to_bytes (z : List Nat) (hz : is_limbs 8 z) :
    u256_from_bytes (u256_to_bytes z) = z := by
  obtain ⟨z0, z1, z2, z3, z4, z5, z6, z7, rfl, h0, h1, h2, h3, h4, h5, h6, h7⟩ :=
    is_limbs_eight z hz
  rw [u256_to_bytes_eight]
  simp only [u256_to_bytes_limb, List.cons_append, List.nil_append, u256_from_bytes,
    u256_from_bytes_limb, List.range, List.range.loop, List.map, List.getD_cons_succ,
    List.getD_cons_zero, Nat.reduceMul, Nat.reduceSub, Nat.reduceAdd]
  rw [u256_from_bytes_limb_bytes z0 h0, u256_from_bytes_limb_bytes z1 h1,
    u256_from_bytes_limb_bytes z2 h2, u256_from_bytes_limb_bytes z3 h3,
    u256_from_bytes_limb_bytes z4 h4, u256_from_bytes_limb_bytes z5 h5,
    u256_from_bytes_limb_bytes z6 h6, u256_from_bytes_limb_bytes z7 h7]

lemma be_val_eq_sum (p : List Nat) (hp : is_bytes 32 p) :
    be_val p = ∑ j ∈ Finset.range 32, p.getD j 0 * 256 ^ (31 - j) := by
  obtain ⟨b0, b1, b2, b3, b4, b5, b6, b7, b8, b9, b10, b11, b12, b13, b14, b15, b16, b17, b18,
    b19, b20, b21, b22, b23, b24, b25, b26, b27, b28, b29, b30, b31, rfl, -⟩ :=
    is_bytes_thirty_two p hp
  simp only [be_val, List.foldl, Finset.sum_range_succ, Finset.sum_range_zero,
    List.getD_cons_succ, List.getD_cons_zero, Nat.reduceSub]
  norm_num
  omega

lemma u256_to_bytes_eq_be_bytes32 (z : List Nat) (hz : is_limbs 8 z) :
    u256_to_bytes z = be_bytes32 (limbs_val z) := by
  obtain ⟨z0, z1, z2, z3, z4, z5, z6, z7, rfl, h0, h1, h2, h3, h4, h5, h6, h7⟩ :=
    is_limbs_eight z hz
  rw [u256_to_bytes_eight]
  simp only [be_bytes32, List.range, List.range.loop, List.map, limbs_val, u256_to_bytes_limb,
    Nat.shiftRight_eq_div_pow, List.cons_append, List.nil_append, Nat.reduceSub,
    Nat.reduceAdd, List.cons.injEq, and_true]
  norm_num at h0 h1 h2 h3 h4 h5 h6 h7 ⊢
  refine ⟨?_, ?_, ?_, ?_, ?_, ?_, ?_, ?_, ?_, ?_, ?_, ?_, ?_, ?_, ?_, ?_, ?_, ?_, ?_, ?_, ?_,
    ?_, ?_, ?_, ?_, ?_, ?_, ?_, ?_, ?_, ?_, ?_⟩ <;> omega

/-- C19.  For every 32-byte array `p`, `u256_from_bytes` produces the limbs of the integer
`sum over j of p[j] * 256^(31-j)`; for every 256-bit `z`, `u256_to_bytes` writes the 32-byte
big-endian encoding of `z`; and the two functions are inverse to each other. -/
theorem u256_bytes_big_endian (p : List Nat) (z : U256) (hp : is_bytes 32 p)
    (hz : is_limbs 8 z) :
    is_limbs 8 (u256_from_bytes p) ∧
    limbs_val (u256_from_bytes p) = ∑ j ∈ Finset.range 32, p.getD j 0 * 256 ^ (31 - j) ∧
    is_bytes 32 (u256_to_bytes z) ∧ be_val (u256_to_bytes z) = limbs_val z ∧
    u256_to_bytes z = be_bytes32 (limbs_val z) ∧
    u256_to_bytes (u256_from_bytes p) = p ∧ u256_from_bytes (u256_to_bytes z) = z := by
  obtain ⟨f1, f2⟩ := u256_from_bytes_spec p hp
  obtain ⟨t1, t2⟩ := u256_to_bytes_spec z hz
  exact ⟨f1, by rw [f2, be_val_eq_sum p hp], t1, t2, u256_to_bytes_eq_be_bytes32 z hz,
    u256_to_from_bytes p hp, u256_from_to_bytes z hz⟩

set_option maxRecDepth 20000 in
/-- C19 at a concrete byte string and a concrete 256-bit value. -/
theorem u256_bytes_big_endian_witness :
    is_bytes 32 (List.range 32) ∧ is_limbs 8 p256_n.m ∧
    (is_limbs 8 (u256_from_bytes (List.range 32)) ∧
      limbs_val (u256_from_bytes (List.range 32))
        = ∑ j ∈ Finset.range 32, (List.range 32).getD j 0 * 256 ^ (31 - j) ∧
      is_bytes 32 (u256_to_bytes p256_n.m) ∧
      be_val (u256_to_bytes p256_n.m) = limbs_val p256_n.m ∧
      u256_to_bytes p256_n.m = be_bytes32 (limbs_val p256_n.m) ∧
      u256_to_bytes (u256_from_bytes (List.range 32)) = List.range 32 ∧
      u256_from_bytes (u256_to_bytes p256_n.m) = p256_n.m) :=
  ⟨by decide, by decide, u256_bytes_big_endian (List.range 32) p256_n.m (by decide) (by decide)⟩

end P256m

/-! ## Fixed-width packing -/

namespace MemUtil

/-- Writing the bytes `bs` one after the other from position `pos`, as the `out[pos++] = b`
statements do. -/
lemma write_each (bs : List Nat) : ∀ (pre mid post : List Nat), mid.length = bs.length →
    bs.foldl (fun (s : List Nat × Nat) b => (s.1.set s.2 b, s.2 + 1))
        (pre ++ mid ++ post, pre.length)
      = (pre ++ bs ++ post, pre.length + bs.length) := by
  induction bs with
  | nil =>
    intro pre mid post h
    have : mid = [] := List.length_eq_zero.1 h
    simp [this]
  | cons b bs ih =>
    intro pre mid post h
    cases mid with
    | nil => simp at h
    | cons m mid =>
      have hset : (pre ++ m :: mid ++ post).set pre.length b = (pre ++ [b]) ++ mid ++ post := by
        simp [List.set_append]
      rw [List.foldl_cons]
      simp only [hset]
      have hlen : pre.length + 1 = (pre ++ [b]).length := by simp
      rw [hlen, ih (pre ++ [b]) mid post (by simpa using h)]
      simp [Nat.add_assoc, Nat.add_comm 1]

lemma split_at (out : List Nat) (pos n : Nat) (h : pos + n ≤ out.length) :
    out = out.take pos ++ (out.drop pos).take n ++ out.drop (pos + n) ∧
    (out.take pos).length = pos ∧ ((out.drop pos).take n).length = n := by
  refine ⟨?_, ?_, ?_⟩
  · rw [List.append_assoc, ← List.drop_drop, List.take_append_drop, List.take_append_drop]
  · simp; omega
  · simp; omega

lemma write_each_at (bs out : List Nat) (pos : Nat) (h : pos + bs.length ≤ out.length) :
    bs.foldl (fun (s : List Nat × Nat) b => (s.1.set s.2 b, s.2 + 1)) (out, pos)
      = (out.take pos ++ bs ++ out.drop (pos + bs.length), pos + bs.length) := by
  obtain ⟨h1, h2, h3⟩ := split_at out pos bs.length h
  have := write_each bs (out.take pos) ((out.drop pos).take bs.length)
    (out.drop (pos + bs.length)) h3
  rw [← h1, h2] at this
  exact this

lemma slice_memcpy_at (out src : List Nat) (pos n : Nat) (h : pos + n ≤ out.length)
    (hs : src.length = n) :
    ((memcpy_at out pos src n).drop pos).take n = src ∧
    (memcpy_at out pos src n).length = out.length := by
  unfold memcpy_at
  have hp : (out.take pos).length = pos := by simp; omega
  rw [List.take_of_length_le (by omega : src.length ≤ n)]
  constructor
  · rw [List.append_assoc, List.drop_left' hp, List.take_left' hs]
  · simp; omega

lemma getD_slice (l : List Nat) (pos i : Nat) : l.getD (pos + i) 0 = (l.drop pos).getD i 0 := by
  simp [List.getD_eq_getElem?_getD, List.getElem?_drop]

end MemUtil

namespace MemUtil

lemma or_shl_add (a b k : Nat) (ha : a < 2 ^ k) : a ||| (b <<< k) = a + 2 ^ k * b := by
  rw [Nat.shiftLeft_eq, Nat.or_comm, Nat.mul_comm b, ← Nat.mul_add_lt_is_or ha, Nat.add_comm]

lemma le_or_chain (b0 b1 b2 b3 b4 b5 b6 b7 : Nat) (h0 : b0 < 2 ^ 8) (h1 : b1 < 2 ^ 8)
    (h2 : b2 < 2 ^ 8) (h3 : b3 < 2 ^ 8) (h4 : b4 < 2 ^ 8) (h5 : b5 < 2 ^ 8) (h6 : b6 < 2 ^ 8)
    (h7 : b7 < 2 ^ 8) :
    (((((((0 ||| (b0 <<< 0) % 2 ^ 64) ||| (b1 <<< 8) % 2 ^ 64) ||| (b2 <<< 16) % 2 ^ 64)
      ||| (b3 <<< 24) % 2 ^ 64) ||| (b4 <<< 32) % 2 ^ 64) ||| (b5 <<< 40) % 2 ^ 64)
      ||| (b6 <<< 48) % 2 ^ 64) ||| (b7 <<< 56) % 2 ^ 64
      = b0 + 2 ^ 8 * b1 + 2 ^ 16 * b2 + 2 ^ 24 * b3 + 2 ^ 32 * b4 + 2 ^ 40 * b5 + 2 ^ 48 * b6
        + 2 ^ 56 * b7 := by
  have e0 : (b0 <<< 0) % 2 ^ 64 = b0 := by
    rw [Nat.shiftLeft_eq, Nat.mod_eq_of_lt] <;> norm_num at h0 ⊢
    omega
  have m1 : (b1 <<< 8) % 2 ^ 64 = b1 <<< 8 := by
    rw [Nat.shiftLeft_eq, Nat.mod_eq_of_lt]; norm_num at h1 ⊢; omega
  have m2 : (b2 <<< 16) % 2 ^ 64 = b2 <<< 16 := by
    rw [Nat.shiftLeft_eq, Nat.mod_eq_of_lt]; norm_num at h2 ⊢; omega
  have m3 : (b3 <<< 24) % 2 ^ 64 = b3 <<< 24 := by
    rw [Nat.shiftLeft_eq, Nat.mod_eq_of_lt]; norm_num at h3 ⊢; omega
  have m4 : (b4 <<< 32) % 2 ^ 64 = b4 <<< 32 := by
    rw [Nat.shiftLeft_eq, Nat.mod_eq_of_lt]; norm_num at h4 ⊢; omega
  have m5 : (b5 <<< 40) % 2 ^ 64 = b5 <<< 40 := by
    rw [Nat.shiftLeft_eq, Nat.mod_eq_of_lt]; norm_num at h5 ⊢; omega
  have m6 : (b6 <<< 48) % 2 ^ 64 = b6 <<< 48 := by
    rw [Nat.shiftLeft_eq, Nat.mod_eq_of_lt]; norm_num at h6 ⊢; omega
  have m7 : (b7 <<< 56) % 2 ^ 64 = b7 <<< 56 := by
    rw [Nat.shiftLeft_eq, Nat.mod_eq_of_lt]; norm_num at h7 ⊢; omega
  rw [e0, m1, m2, m3, m4, m5, m6, m7, Nat.zero_or]
  rw [or_shl_add b0 b1 8 h0]
  rw [or_shl_add _ b2 16 (by norm_num at h0 h1 ⊢; omega)]
  rw [or_shl_add _ b3 24 (by norm_num at h0 h1 h2 ⊢; omega)]
  rw [or_shl_add _ b4 32 (by norm_num at h0 h1 h2 h3 ⊢; omega)]
  rw [or_shl_add _ b5 40 (by norm_num at h0 h1 h2 h3 h4 ⊢; omega)]
  rw [or_shl_add _ b6 48 (by norm_num at h0 h1 h2 h3 h4 h5 ⊢; omega)]
  rw [or_shl_add _ b7 56 (by norm_num at h0 h1 h2 h3 h4 h5 h6 ⊢; omega)]

lemma push64_eq (out : List Nat) (pos v : Nat) (h : pos + 8 ≤ out.length) :
    push64 out pos v =
      (out.take pos ++ (List.range 8).map (fun i => (v >>> (8 * i)) % 2 ^ 8)
        ++ out.drop (pos + 8), pos + 8) := by
  unfold push64
  have := write_each_at ((List.range 8).map (fun i => (v >>> (8 * i)) % 2 ^ 8)) out pos
    (by simpa using h)
  rw [List.foldl_map] at this
  simpa using this

lemma push16_eq (out : List Nat) (pos v : Nat) (h : pos + 2 ≤ out.length) :
    push16 out pos v =
      (out.take pos ++ [(v &&& 0xFF) % 2 ^ 8, ((v >>> 8) &&& 0xFF) % 2 ^ 8]
        ++ out.drop (pos + 2), pos + 2) := by
  have := write_each_at [(v &&& 0xFF) % 2 ^ 8, ((v >>> 8) &&& 0xFF) % 2 ^ 8] out pos
    (by simpa using h)
  simpa [push16] using this

lemma drop_written (out bs : List Nat) (pos : Nat) (h : pos ≤ out.length) (rest : List Nat) :
    (out.take pos ++ bs ++ rest).drop pos = bs ++ rest := by
  rw [List.append_assoc, List.drop_left' (by simp; omega)]

/-- C16.  For every buffer with room at the cursor and every value: `push16` and `push64`
store the value least significant byte first and `push128`, `push256` store the 16 or 32
bytes unchanged, each advancing the cursor by its width (2, 8, 16, 32) and keeping the
buffer size; the matching `pop` from the same position returns the value and advances
the cursor by the same width. -/
theorem push_pop_round_trip (out : List Nat) (pos v16 v64 : Nat) (v128 v256 : List Nat)
    (h16 : v16 < 2 ^ 16) (h64 : v64 < 2 ^ 64) (h128 : v128.length = 16)
    (h256 : v256.length = 32) :
    (pos + 2 ≤ out.length →
      (push16 out pos v16).2 = pos + 2 ∧
      ((push16 out pos v16).1.drop pos).take 2 = [v16 % 256, v16 / 256 % 256] ∧
      (push16 out pos v16).1.length = out.length ∧
      pop16 (push16 out pos v16).1 pos = (v16, pos + 2)) ∧
    (pos + 8 ≤ out.length →
      (push64 out pos v64).2 = pos + 8 ∧
      ((push64 out pos v64).1.drop pos).take 8
        = (List.range 8).map (fun i => v64 / 256 ^ i % 256) ∧
      (push64 out pos v64).1.length = out.length ∧
      pop64 (push64 out pos v64).1 pos = (v64, pos + 8)) ∧
    (pos + 16 ≤ out.length →
      (push128 out pos v128).2 = pos + 16 ∧
      ((push128 out pos v128).1.drop pos).take 16 = v128 ∧
      (push128 out pos v128).1.length = out.length ∧
      pop128 (push128 out pos v128).1 pos = (v128, pos + 16)) ∧
    (pos + 32 ≤ out.length →
      (push256 out pos v256).2 = pos + 32 ∧
      ((push256 out pos v256).1.drop pos).take 32 = v256 ∧
      (push256 out pos v256).1.length = out.length ∧
      pop256 (push256 out pos v256).1 pos = (v256, pos + 32)) := by
  refine ⟨fun h => ?_, fun h => ?_, fun h => ?_, fun h => ?_⟩
  · have e1 : (v16 &&& 0xFF) % 2 ^ 8 = v16 % 256 := by
      have := Nat.and_pow_two_sub_one_eq_mod v16 8
      norm_num at this ⊢
      rw [this]; omega
    have e2 : ((v16 >>> 8) &&& 0xFF) % 2 ^ 8 = v16 / 256 % 256 := by
      have := Nat.and_pow_two_sub_one_eq_mod (v16 >>> 8) 8
      rw [Nat.shiftRight_eq_div_pow] at this ⊢
      norm_num at this ⊢
      rw [this]; omega
    rw [push16_eq out pos v16 h, e1, e2]
    have hd := drop_written out [v16 % 256, v16 / 256 % 256] pos (by omega) (out.drop (pos + 2))
    refine ⟨rfl, ?_, ?_, ?_⟩
    · simp only [hd]; rfl
    · simp; omega
    · simp only [pop16, Prod.mk.injEq, and_true]
      rw [show pos = pos + 0 from rfl, getD_slice, show pos + 0 + 1 = pos + 1 from rfl,
        getD_slice, show pos + 0 = pos from rfl, hd]
      simp only [List.cons_append, List.getD_cons_succ, List.getD_cons_zero]
      have hb : v16 % 256 < 2 ^ 8 := by norm_num; omega
      rw [or_shl_add _ _ 8 hb]
      norm_num at h16 ⊢
      omega
  · rw [push64_eq out pos v64 h]
    have hd := drop_written out ((List.range 8).map (fun i => (v64 >>> (8 * i)) % 2 ^ 8)) pos
      (by omega) (out.drop (pos + 8))
    refine ⟨rfl, ?_, ?_, ?_⟩
    · simp only [hd]
      rw [List.take_left' (by simp)]
      simp only [List.range, List.range.loop, List.map, Nat.shiftRight_eq_div_pow]
      norm_num
    · simp; omega
    · simp only [pop64, Prod.mk.injEq, and_true]
      simp only [getD_slice, hd]
      simp only [List.range, List.range.loop, List.foldl, List.map,
        List.cons_append, List.getD_cons_succ, List.getD_cons_zero, Nat.reduceMul]
      rw [le_or_chain _ _ _ _ _ _ _ _ (Nat.mod_lt _ (by norm_num)) (Nat.mod_lt _ (by norm_num))
        (Nat.mod_lt _ (by norm_num)) (Nat.mod_lt _ (by norm_num)) (Nat.mod_lt _ (by norm_num))
        (Nat.mod_lt _ (by norm_num)) (Nat.mod_lt _ (by norm_num)) (Nat.mod_lt _ (by norm_num))]
      simp only [Nat.shiftRight_eq_div_pow]
      norm_num at h64 ⊢
      omega
  · obtain ⟨s1, s2⟩ := slice_memcpy_at out v128 pos 16 h h128
    exact ⟨rfl, s1, s2, by simp only [pop128, push128, s1]⟩
  · obtain ⟨s1, s2⟩ := slice_memcpy_at out v256 pos 32 h h256
    exact ⟨rfl, s1, s2, by simp only [pop256, push256, s1]⟩

/-- C16 at a concrete 40-byte buffer with the cursor at 3. -/
theorem push_pop_round_trip_witness :
    (0x0102 < 2 ^ 16 ∧ 0x0102030405060708 < 2 ^ 64 ∧ (List.range 16).length = 16 ∧
      (List.range 32).length = 32 ∧ 3 + 32 ≤ (List.replicate 40 7).length) ∧
    pop16 (push16 (List.replicate 40 7) 3 0x0102).1 3 = (0x0102, 3 + 2) ∧
    pop64 (push64 (List.replicate 40 7) 3 0x0102030405060708).1 3
      = (0x0102030405060708, 3 + 8) ∧
    pop128 (push128 (List.replicate 40 7) 3 (List.range 16)).1 3 = (List.range 16, 3 + 16) ∧
    pop256 (push256 (List.replicate 40 7) 3 (List.range 32)).1 3 = (List.range 32, 3 + 32) :=
  have h := push_pop_round_trip (List.replicate 40 7) 3 0x0102 0x0102030405060708
    (List.range 16) (List.range 32) (by decide) (by decide) (by decide) (by decide)
  ⟨by decide, (h.1 (by decide)).2.2.2, (h.2.1 (by decide)).2.2.2,
    (h.2.2.1 (by decide)).2.2.2, (h.2.2.2 (by decide)).2.2.2⟩

end MemUtil

/-! ## The accumulator of `m256_mul` -/

namespace P256m

set_option maxRecDepth 20000 in
/-- C18, the failing inputs.  For `x = y = 0` under `p256_p` the accumulator after the loop
is `a = 0 < m`, yet the output is `a + m`; for `x = y = 1` the accumulator is again below
`m`, yet the output is `a - m + 2^256`.  In neither case is the output `a`. -/
theorem m256_mul_final_reduction_at_inputs :
    limbs_val (m256_mul_acc (u256_set32 0) (u256_set32 0) p256_p) = 0 ∧
    limbs_val (m256_mul (u256_set32 0) (u256_set32 0) p256_p)
      = limbs_val (m256_mul_acc (u256_set32 0) (u256_set32 0) p256_p) + limbs_val p256_p.m ∧
    limbs_val (m256_mul_acc (u256_set32 1) (u256_set32 1) p256_p) < limbs_val p256_p.m ∧
    limbs_val (m256_mul (u256_set32 1) (u256_set32 1) p256_p)
      = limbs_val (m256_mul_acc (u256_set32 1) (u256_set32 1) p256_p) + 2 ^ 256
        - limbs_val p256_p.m ∧
    limbs_val (m256_mul (u256_set32 1) (u256_set32 1) p256_p)
      ≠ limbs_val (m256_mul_acc (u256_set32 1) (u256_set32 1) p256_p) := by
  decide

lemma limbs_val_append (l1 l2 : List Nat) :
    limbs_val (l1 ++ l2) = limbs_val l1 + 2 ^ (32 * l1.length) * limbs_val l2 := by
  induction l1 with
  | nil => simp [limbs_val]
  | cons a l ih =>
    have hp : 2 ^ (32 * (l.length + 1)) = 2 ^ 32 * 2 ^ (32 * l.length) := by
      rw [Nat.mul_succ, Nat.pow_add, Nat.mul_comm]
    show limbs_val (a :: (l ++ l2)) = limbs_val (a :: l) + _
    simp only [limbs_val]
    rw [ih, List.length_cons, hp]
    ring

lemma getD_lt_of_limbs (x : List Nat) (hx : ∀ l ∈ x, l < 2 ^ 32) (i : Nat) :
    x.getD i 0 < 2 ^ 32 := by
  by_cases h : i < x.length
  · rw [List.getD_eq_getElem x 0 h]
    exact hx _ (List.getElem_mem _)
  · rw [List.getD_eq_default x 0 (by omega)]
    norm_num

lemma limbs_val_mod (x : List Nat) (hx : ∀ l ∈ x, l < 2 ^ 32) :
    limbs_val x % 2 ^ 32 = x.getD 0 0 := by
  cases x with
  | nil => simp [limbs_val]
  | cons a xs =>
    have ha : a < 2 ^ 32 := hx a (by simp)
    simp only [limbs_val, List.getD_cons_zero]
    rw [Nat.add_mul_mod_self_left, Nat.mod_eq_of_lt ha]

lemma u288_muladd_limb (x yi zi c : Nat) (hx : x < 2 ^ 32) (hy : yi < 2 ^ 32)
    (hz : zi < 2 ^ 32) (hc : c < 2 ^ 32) :
    ((u32_muladd64 x yi zi c) >>> 32) % 2 ^ 32 < 2 ^ 32 ∧
    (u32_muladd64 x yi zi c) % 2 ^ 32 + 2 ^ 32 * (((u32_muladd64 x yi zi c) >>> 32) % 2 ^ 32)
      = x * yi + zi + c := by
  have hp : x * yi ≤ (2 ^ 32 - 1) * (2 ^ 32 - 1) :=
    Nat.mul_le_mul (by omega) (by omega)
  unfold u32_muladd64
  rw [Nat.shiftRight_eq_div_pow]
  generalize x * yi = p at hp ⊢
  norm_num at hx hy hz hc hp ⊢
  omega

lemma u288_muladd_loop_spec (x : Nat) (hx : x < 2 ^ 32) (z : List Nat) :
    ∀ (y : List Nat) (c : Nat), z.length = y.length → (∀ l ∈ z, l < 2 ^ 32) →
    (∀ l ∈ y, l < 2 ^ 32) → c < 2 ^ 32 →
    (u288_muladd_loop x z y c).1.length = z.length ∧
    (∀ l ∈ (u288_muladd_loop x z y c).1, l < 2 ^ 32) ∧
    (u288_muladd_loop x z y c).2 < 2 ^ 32 ∧
    limbs_val (u288_muladd_loop x z y c).1
        + 2 ^ (32 * z.length) * (u288_muladd_loop x z y c).2
      = limbs_val z + x * limbs_val y + c := by
  induction z with
  | nil =>
    intro y c hl _ _ hc
    cases y with
    | nil =>
      refine ⟨rfl, ?_, hc, ?_⟩
      · intro l hl; simp [u288_muladd_loop] at hl
      · simp [u288_muladd_loop, limbs_val]
    | cons b ys => simp at hl
  | cons a zs ih =>
    intro y c hl hz hy hc
    cases y with
    | nil => simp at hl
    | cons b ys =>
      have ha : a < 2 ^ 32 := hz a (by simp)
      have hb : b < 2 ^ 32 := hy b (by simp)
      obtain ⟨h1, h2⟩ := u288_muladd_limb x b a c hx hb ha hc
      obtain ⟨i1, i2, i3, i4⟩ := ih ys _ (by simpa using hl) (fun l h => hz l (by simp [h]))
        (fun l h => hy l (by simp [h])) h1
      simp only [u288_muladd_loop, limbs_val, List.length_cons]
      refine ⟨by rw [i1], ?_, i3, ?_⟩
      · intro l hl
        rcases List.mem_cons.1 hl with h | h
        · rw [h]; exact Nat.mod_lt _ (by norm_num)
        · exact i2 l h
      · have hp : 2 ^ (32 * (zs.length + 1)) = 2 ^ 32 * 2 ^ (32 * zs.length) := by
          rw [Nat.mul_succ, Nat.pow_add, Nat.mul_comm]
        rw [hp]
        generalize (u288_muladd_loop x zs ys _) = r at i1 i2 i3 i4 ⊢
        generalize u32_muladd64 x b a c = d at h1 h2 i4 ⊢
        have e : 2 ^ 32 * 2 ^ (32 * zs.length) * r.2 = 2 ^ 32 * (2 ^ (32 * zs.length) * r.2) := by
          ring
        have e2 : x * (b + 2 ^ 32 * limbs_val ys) = x * b + 2 ^ 32 * (x * limbs_val ys) := by
          ring
        rw [e, e2]
        generalize 2 ^ (32 * zs.length) * r.2 = t at i4 ⊢
        generalize limbs_val r.1 = v at i4 ⊢
        generalize x * limbs_val ys = w at i4 ⊢
        generalize limbs_val zs = u at i4 ⊢
        generalize x * b = q at h2 ⊢
        generalize ((d >>> 32) % 2 ^ 32) = k at h2 i4 ⊢
        norm_num at h2 ⊢
        omega

lemma is_limbs_nine (z : List Nat) (hz : is_limbs 9 z) :
    ∃ z0 z1 z2 z3 z4 z5 z6 z7 z8, z = [z0, z1, z2, z3, z4, z5, z6, z7, z8] ∧ z0 < 2 ^ 32 ∧
      z1 < 2 ^ 32 ∧ z2 < 2 ^ 32 ∧ z3 < 2 ^ 32 ∧ z4 < 2 ^ 32 ∧ z5 < 2 ^ 32 ∧ z6 < 2 ^ 32 ∧
      z7 < 2 ^ 32 ∧ z8 < 2 ^ 32 := by
  obtain ⟨hlen, hb⟩ := hz
  iterate 9 (rcases z with _ | ⟨_, z⟩; · simp at hlen)
  rcases z with _ | ⟨_, z⟩
  swap; · simp at hlen
  simp only [List.mem_cons, forall_eq_or_imp, List.mem_nil_iff] at hb
  obtain ⟨h0, h1, h2, h3, h4, h5, h6, h7, h8, -⟩ := hb
  exact ⟨_, _, _, _, _, _, _, _, _, rfl, h0, h1, h2, h3, h4, h5, h6, h7, h8⟩

/-- What `u288_muladd` computes: `z + x * y` on nine limbs with a carry of 0 or 1. -/
lemma u288_muladd_spec (z : List Nat) (x : Nat) (y : List Nat) (hz : is_limbs 9 z)
    (hx : x < 2 ^ 32) (hy : is_limbs 8 y) :
    is_limbs 9 (u288_muladd z x y).1 ∧ (u288_muladd z x y).2 ≤ 1 ∧
    limbs_val (u288_muladd z x y).1 + 2 ^ 288 * (u288_muladd z x y).2
      = limbs_val z + x * limbs_val y := by
  obtain ⟨z0, z1, z2, z3, z4, z5, z6, z7, z8, rfl, h0, h1, h2, h3, h4, h5, h6, h7, h8⟩ :=
    is_limbs_nine z hz
  have hz8 : ∀ l ∈ [z0, z1, z2, z3, z4, z5, z6, z7], l < 2 ^ 32 := by
    intro l hl
    simp only [List.mem_cons, List.mem_nil_iff, or_false] at hl
    rcases hl with h | h | h | h | h | h | h | h <;> rw [h] <;> assumption
  obtain ⟨i1, i2, i3, i4⟩ := u288_muladd_loop_spec x hx [z0, z1, z2, z3, z4, z5, z6, z7] y 0
    (by rw [hy.1]; rfl) hz8 hy.2 (by norm_num)
  have ht : List.take 8 [z0, z1, z2, z3, z4, z5, z6, z7, z8] = [z0, z1, z2, z3, z4, z5, z6, z7] :=
    rfl
  have hg : List.getD [z0, z1, z2, z3, z4, z5, z6, z7, z8] 8 0 = z8 := rfl
  simp only [u288_muladd, ht, hg]
  generalize (u288_muladd_loop x [z0, z1, z2, z3, z4, z5, z6, z7] y 0) = r at i1 i2 i3 i4 ⊢
  refine ⟨⟨by simp [i1], ?_⟩, ?_, ?_⟩
  · intro l hl
    rcases List.mem_append.1 hl with h | h
    · exact i2 l h
    · simp only [List.mem_singleton] at h
      rw [h]; exact Nat.mod_lt _ (by norm_num)
  · rw [Nat.shiftRight_eq_div_pow]
    norm_num at h8 i3 ⊢
    omega
  · rw [limbs_val_append, i1]
    simp only [limbs_val, List.length_cons, List.length_nil] at i4 ⊢
    rw [Nat.shiftRight_eq_div_pow]
    generalize limbs_val r.1 = v at i4 ⊢
    generalize x * limbs_val y = w at i4 ⊢
    generalize r.2 = k at i3 i4 ⊢
    norm_num at h8 i3 i4 ⊢
    omega

/-- What `u288_rshift32` computes: the limbs move down by one and `c` becomes the top limb. -/
lemma u288_rshift32_spec (z : List Nat) (c : Nat) (hz : is_limbs 9 z) (hc : c < 2 ^ 32) :
    is_limbs 9 (u288_rshift32 z c) ∧
    limbs_val z + 2 ^ 288 * c = z.getD 0 0 + 2 ^ 32 * limbs_val (u288_rshift32 z c) ∧
    (u288_rshift32 z c).getD 8 0 = c ∧ 2 ^ 256 * c ≤ limbs_val (u288_rshift32 z c) := by
  obtain ⟨z0, z1, z2, z3, z4, z5, z6, z7, z8, rfl, h0, h1, h2, h3, h4, h5, h6, h7, h8⟩ :=
    is_limbs_nine z hz
  have hr : u288_rshift32 [z0, z1, z2, z3, z4, z5, z6, z7, z8] c
      = [z1, z2, z3, z4, z5, z6, z7, z8, c] := rfl
  rw [hr]
  refine ⟨⟨rfl, ?_⟩, ?_, rfl, ?_⟩
  · intro l hl
    simp only [List.mem_cons, List.mem_nil_iff, or_false] at hl
    rcases hl with h | h | h | h | h | h | h | h | h <;> rw [h] <;> assumption
  · simp only [limbs_val, List.getD_cons_zero]
    norm_num
    omega
  · simp only [limbs_val]
    norm_num
    omega

/-- The reduction digit makes the low limb of `a + x[i] * y + u * m` vanish. -/
lemma m256_mul_digit (s ni m0 : Nat) (hs : s < 2 ^ 64) (hni : (ni * m0 + 1) % 2 ^ 32 = 0) :
    (s + ((s % 2 ^ 64 * ni) % 2 ^ 64 % 2 ^ 32) * m0) % 2 ^ 32 = 0 := by
  rw [Nat.mod_eq_of_lt hs, Nat.mod_mod_of_dvd _ (by norm_num : (2 ^ 32 ∣ 2 ^ 64))]
  have h1 : (s * ni) % 2 ^ 32 ≡ s * ni [MOD 2 ^ 32] := Nat.mod_modEq _ _
  have h2 : s + (s * ni) % 2 ^ 32 * m0 ≡ s + s * ni * m0 [MOD 2 ^ 32] :=
    Nat.ModEq.add_left s (h1.mul_right m0)
  have h3 : s + s * ni * m0 = s * (ni * m0 + 1) := by ring
  have h0 : ni * m0 + 1 ≡ 0 [MOD 2 ^ 32] := by
    unfold Nat.ModEq; rw [hni]; rfl
  have h4 : s * (ni * m0 + 1) ≡ s * 0 [MOD 2 ^ 32] := Nat.ModEq.mul_left s h0
  rw [h3] at h2
  have h5 := h2.trans h4
  unfold Nat.ModEq at h5
  rw [h5]; simp

/-- One iteration of the loop of `m256_mul`: the accumulator stays a nine-limb value below
`2 * m`, it becomes `(a + x[i] * y + u * m) / 2^32` exactly, and the two carries add up to
at most 1. -/
lemma m256_mul_step_spec (y : List Nat) (mod : m256_mod) (a : List Nat) (xi : Nat)
    (hm : is_limbs 8 mod.m) (hni : (mod.ni * mod.m.getD 0 0 + 1) % 2 ^ 32 = 0)
    (hy : is_limbs 8 y) (hym : limbs_val y < limbs_val mod.m)
    (ha : is_limbs 9 a) (ham : limbs_val a < 2 * limbs_val mod.m) (hxi : xi < 2 ^ 32) :
    is_limbs 9 (m256_mul_step y mod a xi) ∧
    2 ^ 32 * limbs_val (m256_mul_step y mod a xi)
      = limbs_val a + xi * limbs_val y + m256_mul_u y mod a xi * limbs_val mod.m ∧
    limbs_val (m256_mul_step y mod a xi) < 2 * limbs_val mod.m ∧
    (m256_mul_carries y mod a xi).1 + (m256_mul_carries y mod a xi).2 ≤ 1 ∧
    (m256_mul_step y mod a xi).getD 8 0 ≤ 1 := by
  have hu : m256_mul_u y mod a xi < 2 ^ 32 := Nat.mod_lt _ (by norm_num)
  have hstep : m256_mul_step y mod a xi
      = u288_rshift32 (u288_muladd (u288_muladd a xi y).1 (m256_mul_u y mod a xi) mod.m).1
          (((u288_muladd a xi y).2
            + (u288_muladd (u288_muladd a xi y).1 (m256_mul_u y mod a xi) mod.m).2) % 2 ^ 32) :=
    rfl
  have hcar : m256_mul_carries y mod a xi
      = ((u288_muladd a xi y).2,
          (u288_muladd (u288_muladd a xi y).1 (m256_mul_u y mod a xi) mod.m).2) := rfl
  -- the low limb of the total vanishes
  have ha0 := getD_lt_of_limbs a ha.2 0
  have hy0 := getD_lt_of_limbs y hy.2 0
  have hs : a.getD 0 0 + xi * y.getD 0 0 < 2 ^ 64 := by
    have hp : xi * y.getD 0 0 ≤ (2 ^ 32 - 1) * (2 ^ 32 - 1) :=
      Nat.mul_le_mul (by omega) (by omega)
    generalize xi * y.getD 0 0 = p at hp ⊢
    norm_num at ha0 hp ⊢
    omega
  have hdig : (a.getD 0 0 + xi * y.getD 0 0 + m256_mul_u y mod a xi * mod.m.getD 0 0) % 2 ^ 32
      = 0 := m256_mul_digit _ mod.ni _ hs hni
  have hA : limbs_val a ≡ a.getD 0 0 [MOD 2 ^ 32] := by
    unfold Nat.ModEq; rw [limbs_val_mod a ha.2, Nat.mod_eq_of_lt ha0]
  have hY : limbs_val y ≡ y.getD 0 0 [MOD 2 ^ 32] := by
    unfold Nat.ModEq; rw [limbs_val_mod y hy.2, Nat.mod_eq_of_lt hy0]
  have hM : limbs_val mod.m ≡ mod.m.getD 0 0 [MOD 2 ^ 32] := by
    unfold Nat.ModEq
    rw [limbs_val_mod mod.m hm.2, Nat.mod_eq_of_lt (getD_lt_of_limbs mod.m hm.2 0)]
  have hT : (limbs_val a + xi * limbs_val y + m256_mul_u y mod a xi * limbs_val mod.m) % 2 ^ 32
      = 0 := by
    have := (hA.add (hY.mul_left xi)).add (hM.mul_left (m256_mul_u y mod a xi))
    unfold Nat.ModEq at this
    rw [this, hdig]
  -- the two multiply-accumulate calls
  obtain ⟨r1a, r1b, r1c⟩ := u288_muladd_spec a xi y ha hxi hy
  obtain ⟨r2a, r2b, r2c⟩ := u288_muladd_spec _ (m256_mul_u y mod a xi) mod.m r1a hu hm
  rw [hstep, hcar]
  generalize (u288_muladd (u288_muladd a xi y).1 (m256_mul_u y mod a xi) mod.m) = r2
    at r2a r2b r2c ⊢
  generalize (u288_muladd a xi y) = r1 at r1a r1b r1c r2c ⊢
  have hc : (r1.2 + r2.2) % 2 ^ 32 = r1.2 + r2.2 := Nat.mod_eq_of_lt (by norm_num; omega)
  rw [hc]
  obtain ⟨s1, s2, s3, s4⟩ := u288_rshift32_spec r2.1 (r1.2 + r2.2) r2a (by norm_num; omega)
  have hz0 : r2.1.getD 0 0 = limbs_val r2.1 % 2 ^ 32 := (limbs_val_mod r2.1 r2a.2).symm
  have hM256 := limbs_val_lt mod.m hm.2
  rw [hm.1] at hM256
  have hxy : xi * limbs_val y ≤ (2 ^ 32 - 1) * limbs_val y :=
    Nat.mul_le_mul_right _ (by omega)
  have hum : m256_mul_u y mod a xi * limbs_val mod.m ≤ (2 ^ 32 - 1) * limbs_val mod.m :=
    Nat.mul_le_mul_right _ (by omega)
  simp only []
  rw [s3]
  generalize limbs_val (u288_rshift32 r2.1 (r1.2 + r2.2)) = v at s2 s4 ⊢
  generalize r2.1.getD 0 0 = z0 at hz0 s2
  generalize limbs_val r2.1 = v2 at hz0 s2 r2c
  generalize limbs_val r1.1 = v1 at r1c r2c
  generalize xi * limbs_val y = p at hxy hT r1c ⊢
  generalize m256_mul_u y mod a xi * limbs_val mod.m = q at hum hT r2c ⊢
  generalize limbs_val a = va at ham hT r1c ⊢
  generalize limbs_val y = vy at hym hxy
  generalize limbs_val mod.m = vm at ham hym hum hM256 ⊢
  generalize r1.2 = c1 at *
  generalize r2.2 = c2 at *
  norm_num at hT hM256 hxy hum s2 s4 hz0 r1c r2c
  refine ⟨s1, ?_, ?_, ?_, ?_⟩ <;> omega

/-- The loop of `m256_mul` over any run of limbs: the accumulator stays below `2 * m` and,
scaled by the limbs consumed, equals the start plus the partial product plus a multiple
of `m`. -/
lemma m256_mul_fold_spec (y : List Nat) (mod : m256_mod)
    (hm : is_limbs 8 mod.m) (hni : (mod.ni * mod.m.getD 0 0 + 1) % 2 ^ 32 = 0)
    (hy : is_limbs 8 y) (hym : limbs_val y < limbs_val mod.m) (xs : List Nat) :
    ∀ a : List Nat, (∀ l ∈ xs, l < 2 ^ 32) → is_limbs 9 a → limbs_val a < 2 * limbs_val mod.m →
    is_limbs 9 (xs.foldl (m256_mul_step y mod) a) ∧
    limbs_val (xs.foldl (m256_mul_step y mod) a) < 2 * limbs_val mod.m ∧
    ∃ U, 2 ^ (32 * xs.length) * limbs_val (xs.foldl (m256_mul_step y mod) a)
      = limbs_val a + limbs_val xs * limbs_val y + U * limbs_val mod.m := by
  induction xs with
  | nil =>
    intro a _ ha ham
    exact ⟨ha, ham, 0, by simp [limbs_val]⟩
  | cons xi xs ih =>
    intro a hxs ha ham
    have hxi : xi < 2 ^ 32 := hxs xi (by simp)
    obtain ⟨e1, e2, e3, -, -⟩ := m256_mul_step_spec y mod a xi hm hni hy hym ha ham hxi
    obtain ⟨i1, i2, U, i3⟩ := ih (m256_mul_step y mod a xi) (fun l h => hxs l (by simp [h])) e1 e3
    rw [List.foldl_cons]
    refine ⟨i1, i2, m256_mul_u y mod a xi + 2 ^ 32 * U, ?_⟩
    have hp : 2 ^ (32 * (xi :: xs).length) = 2 ^ 32 * 2 ^ (32 * xs.length) := by
      rw [List.length_cons, Nat.mul_succ, Nat.pow_add, Nat.mul_comm]
    rw [hp, Nat.mul_assoc, i3]
    simp only [limbs_val]
    rw [Nat.mul_add, Nat.mul_add, e2]
    ring

lemma limbs_val_take (k : Nat) : ∀ x : List Nat, (∀ l ∈ x, l < 2 ^ 32) →
    limbs_val (x.take k) = limbs_val x % 2 ^ (32 * k) := by
  induction k with
  | zero => intro x _; simp [limbs_val, Nat.mod_one]
  | succ k ih =>
    intro x hx
    cases x with
    | nil => simp [limbs_val]
    | cons a xs =>
      have ha : a < 2 ^ 32 := hx a (by simp)
      have hp : 2 ^ (32 * (k + 1)) = 2 ^ 32 * 2 ^ (32 * k) := by
        rw [Nat.mul_succ, Nat.pow_add, Nat.mul_comm]
      simp only [List.take_succ_cons, limbs_val]
      rw [ih xs (fun l h => hx l (by simp [h])), hp, Nat.mod_mul, Nat.add_mul_mod_self_left,
        Nat.mod_eq_of_lt ha, Nat.add_mul_div_left _ _ (by norm_num : 0 < 2 ^ 32),
        Nat.div_eq_of_lt ha, Nat.zero_add]

lemma m256_mul_acc_at_succ (i : Nat) (x y : List Nat) (mod : m256_mod) (hi : i < x.length) :
    m256_mul_acc_at (i + 1) x y mod
      = m256_mul_step y mod (m256_mul_acc_at i x y mod) (x.getD i 0) := by
  unfold m256_mul_acc_at
  rw [List.take_succ, List.getElem?_eq_getElem hi, Option.toList_some, List.foldl_append,
    List.getD_eq_getElem x 0 hi]
  rfl

/-- C20.  For either modulus context and all `x, y < m`: after each of the eight iterations
of the loop of `m256_mul` the nine-limb accumulator `a` satisfies `a < 2 * m` and
`a * 2^(32*(i+1))` is congruent to `(x mod 2^(32*(i+1))) * y` modulo `m`; the two carries
of the iteration add up to 0 or 1, so the 32-bit sum handed to `u288_rshift32` loses
nothing; and the top limb `a[8]` is 0 or 1 when the loop ends. -/
theorem m256_mul_accumulator_invariant (mod : m256_mod) (hmod : mod = p256_p ∨ mod = p256_n)
    (x y : U256) (hx : is_limbs 8 x) (hy : is_limbs 8 y)
    (hxm : limbs_val x < limbs_val mod.m) (hym : limbs_val y < limbs_val mod.m)
    (i : Nat) (hi : i < 8) :
    m256_mul_acc_at (i + 1) x y mod
      = m256_mul_step y mod (m256_mul_acc_at i x y mod) (x.getD i 0) ∧
    is_limbs 9 (m256_mul_acc_at (i + 1) x y mod) ∧
    limbs_val (m256_mul_acc_at (i + 1) x y mod) < 2 * limbs_val mod.m ∧
    (limbs_val (m256_mul_acc_at (i + 1) x y mod) * 2 ^ (32 * (i + 1))) % limbs_val mod.m
      = ((limbs_val x % 2 ^ (32 * (i + 1))) * limbs_val y) % limbs_val mod.m ∧
    ((m256_mul_carries y mod (m256_mul_acc_at i x y mod) (x.getD i 0)).1
      + (m256_mul_carries y mod (m256_mul_acc_at i x y mod) (x.getD i 0)).2 = 0 ∨
     (m256_mul_carries y mod (m256_mul_acc_at i x y mod) (x.getD i 0)).1
      + (m256_mul_carries y mod (m256_mul_acc_at i x y mod) (x.getD i 0)).2 = 1) ∧
    m256_mul_acc x y mod = m256_mul_acc_at 8 x y mod ∧
    ((m256_mul_acc x y mod).getD 8 0 = 0 ∨ (m256_mul_acc x y mod).getD 8 0 = 1) := by
  have hm : is_limbs 8 mod.m := by rcases hmod with rfl | rfl <;> decide
  have hni : (mod.ni * mod.m.getD 0 0 + 1) % 2 ^ 32 = 0 := by
    rcases hmod with rfl | rfl <;> decide
  have hz : is_limbs 9 (List.replicate 9 0) := by decide
  have hz0 : limbs_val (List.replicate 9 0) = 0 := by decide
  have hzm : limbs_val (List.replicate 9 0) < 2 * limbs_val mod.m := by rw [hz0]; omega
  have hfold : ∀ k, is_limbs 9 (m256_mul_acc_at k x y mod) ∧
      limbs_val (m256_mul_acc_at k x y mod) < 2 * limbs_val mod.m ∧
      ∃ U, 2 ^ (32 * (x.take k).length) * limbs_val (m256_mul_acc_at k x y mod)
        = limbs_val (List.replicate 9 0) + limbs_val (x.take k) * limbs_val y
          + U * limbs_val mod.m := fun k =>
    m256_mul_fold_spec y mod hm hni hy hym (x.take k) (List.replicate 9 0)
      (fun l h => hx.2 l (List.mem_of_mem_take h)) hz hzm
  have hsucc : ∀ j, j < 8 → m256_mul_acc_at (j + 1) x y mod
      = m256_mul_step y mod (m256_mul_acc_at j x y mod) (x.getD j 0) := fun j hj =>
    m256_mul_acc_at_succ j x y mod (by rw [hx.1]; exact hj)
  have hstep : ∀ j, j < 8 →
      (m256_mul_carries y mod (m256_mul_acc_at j x y mod) (x.getD j 0)).1
        + (m256_mul_carries y mod (m256_mul_acc_at j x y mod) (x.getD j 0)).2 ≤ 1 ∧
      (m256_mul_acc_at (j + 1) x y mod).getD 8 0 ≤ 1 := by
    intro j hj
    obtain ⟨f1, f2, -⟩ := hfold j
    obtain ⟨-, -, -, e4, e5⟩ := m256_mul_step_spec y mod (m256_mul_acc_at j x y mod)
      (x.getD j 0) hm hni hy hym f1 f2 (getD_lt_of_limbs x hx.2 j)
    rw [hsucc j hj]
    exact ⟨e4, e5⟩
  have hacc : m256_mul_acc x y mod = m256_mul_acc_at 8 x y mod := by
    unfold m256_mul_acc m256_mul_acc_at
    rw [List.take_of_length_le (by rw [hx.1])]
  obtain ⟨g1, g2, U, g3⟩ := hfold (i + 1)
  have hlen : (x.take (i + 1)).length = i + 1 := by
    rw [List.length_take, hx.1]; omega
  rw [hlen, hz0, limbs_val_take (i + 1) x hx.2, Nat.zero_add] at g3
  refine ⟨hsucc i hi, g1, g2, ?_, ?_, hacc, ?_⟩
  · rw [Nat.mul_comm, g3, Nat.add_mul_mod_self_right]
  · have := (hstep i hi).1
    omega
  · rw [hacc]
    have h7 : (m256_mul_acc_at 8 x y mod).getD 8 0 ≤ 1 := (hstep 7 (by omega)).2
    omega

set_option maxRecDepth 20000 in
/-- C20 at a concrete input: `x = 5`, `y = R2` under `p256_p`, last iteration. -/
theorem m256_mul_accumulator_invariant_witness :
    (is_limbs 8 (u256_set32 5) ∧ is_limbs 8 p256_p.R2 ∧
      limbs_val (u256_set32 5) < limbs_val p256_p.m ∧
      limbs_val p256_p.R2 < limbs_val p256_p.m ∧ 7 < 8) ∧
    limbs_val (m256_mul_acc_at (7 + 1) (u256_set32 5) p256_p.R2 p256_p)
      < 2 * limbs_val p256_p.m ∧
    (limbs_val (m256_mul_acc_at (7 + 1) (u256_set32 5) p256_p.R2 p256_p)
        * 2 ^ (32 * (7 + 1))) % limbs_val p256_p.m
      = ((limbs_val (u256_set32 5) % 2 ^ (32 * (7 + 1))) * limbs_val p256_p.R2)
        % limbs_val p256_p.m ∧
    ((m256_mul_acc (u256_set32 5) p256_p.R2 p256_p).getD 8 0 = 0 ∨
      (m256_mul_acc (u256_set32 5) p256_p.R2 p256_p).getD 8 0 = 1) :=
  have h := m256_mul_accumulator_invariant p256_p (Or.inl rfl) (u256_set32 5) p256_p.R2
    (by decide) (by decide) (by decide) (by decide) 7 (by decide)
  ⟨by decide, h.2.2.1, h.2.2.2.1, h.2.2.2.2.2.2⟩

end P256m
